import Mathlib

/-!
# Part rules of the fuzzing engine

A shallow embedding of `v2/pkg/protocols/common/fuzz/parts.go`: the placement
strategy (`executeReplaceRule`), the value evaluator (`executeEvaluate`), the
request assembly (`buildInput`) and the rule engine (`executePartComponent`).

Go passes the component and the invocation input by reference and mutates them
in place; here both are threaded explicitly through a `State`, together with
the list of calls made to the dispatch sink. Everything the file reaches in
other packages (the component, the expression evaluator, the interaction
client, the key matcher) is a parameter.
-/

namespace fuzz

/-! ## Data model -/

/-- A Go `string`: a sequence of bytes. `len` counts bytes and `s[i:j]` slices bytes. -/
abbrev GoString := List UInt8

/-- The UTF-8 bytes of a literal, used to write examples. -/
def bytes (s : String) : GoString := s.toList.flatMap String.utf8EncodeChar

/-- A Go `map[string]interface{}` of variable bindings, as a list of bindings
(values in their string form). -/
abbrev VarMap := List (GoString × GoString)

/-- The `ruleType` field of a rule: the four named constants that
`executeReplaceRule` switches on, and `otherRuleType` for every other value of
the underlying integer (the zero value included). -/
inductive RuleType
  | replaceRuleType
  | prefixRuleType
  | postfixRuleType
  | infixRuleType
  | otherRuleType
  deriving DecidableEq, Repr

/-- The `modeType` field of a rule: the two named constants that
`executePartComponent` compares with, and `otherModeType` for every other value
of the underlying integer (the zero value included). -/
inductive ModeType
  | singleModeType
  | multipleModeType
  | otherModeType
  deriving DecidableEq, Repr

export RuleType (replaceRuleType prefixRuleType postfixRuleType infixRuleType otherRuleType)
export ModeType (singleModeType multipleModeType otherModeType)

/-- What `rule.options` and the imported packages provide to this file. None of
it is defined in `parts.go`, so each item is a parameter:
`Vars` is `rule.options.Options.Vars.AsMap()`, `Variables` is
`rule.options.Variables.GetAll()`, `MergeMaps` is `generators.MergeMaps`,
`Evaluate` is `expressions.Evaluate` (the string it returns, and whether it also
returned an error) and `Replace` is `rule.options.Interactsh.Replace`. -/
structure Options where
  Vars : VarMap
  Variables : VarMap
  MergeMaps : List VarMap → VarMap
  Evaluate : GoString → VarMap → GoString × Bool
  Replace : GoString → List GoString → GoString × List GoString

/-- The fields of `Rule` that `parts.go` reads. `matchKeyOrValue` is a method
defined elsewhere and is taken as a parameter. -/
structure Rule where
  ruleType : RuleType
  modeType : ModeType
  matchKeyOrValue : GoString → GoString → Bool
  options : Options

/-- The errors a component operation reports. -/
inductive ComponentError
  | InvalidKey
  | BuildError
  deriving DecidableEq, Repr

/-- The errors `executePartComponent` can return: the sentinel
`types.ErrNoMoreRequests`, the error made by
`errors.New("analyzers are not supported with multiple payloads")`, and an
error handed up from the component. -/
inductive Error
  | ErrNoMoreRequests
  | analyzersNotSupported
  | component (e : ComponentError)
  deriving DecidableEq, Repr

/-- Modelled from the spec: the `component.Component` interface, whose package is
not part of this file. `σ` is the in-memory state of a component and `ρ` the
concrete request it rebuilds into. Iteration yields the keys `Keys` gives for
the state it starts from, each with its current value `Value` (already passed
through `types.ToString`); `SetValue` mutates in place and may report an error;
`Rebuild` serialises the current state or fails. -/
structure Component (σ ρ : Type) where
  Keys : σ → List GoString
  Value : σ → GoString → GoString
  SetValue : σ → GoString → GoString → σ × Option ComponentError
  Rebuild : σ → Except ComponentError ρ

/-- The record `analyzers.AnalyzerInput` that `buildInput` fills in. -/
structure AnalyzerInput (σ ρ : Type) where
  Request : ρ
  Component : σ
  FinalArgs : VarMap
  Key : GoString
  Value : GoString
  OriginalValue : GoString

/-- The record `GeneratedRequest` handed to the dispatch sink. `Component` is
the state of the component when the sink is called. -/
structure GeneratedRequest (σ ρ : Type) where
  Request : ρ
  InteractURLs : List GoString
  DynamicValues : VarMap
  Component : σ
  AnalyzerInput : Option (AnalyzerInput σ ρ)

/-- The per-invocation context `ExecuteRuleInput`. The sink `Callback` is a Go
closure and may keep state between calls, so it is given the requests it has
already received in this invocation, oldest first, and the new one. -/
structure ExecuteRuleInput (σ ρ : Type) where
  Values : VarMap
  InteractURLs : List GoString
  HasAnalyzers : Bool
  Callback : List (GeneratedRequest σ ρ) → GeneratedRequest σ ρ → Bool

/-- What `executePartComponent` reads and writes while it runs: the input (its
`InteractURLs` is reassigned), the component, the local `finalErr`, and the
requests passed to the sink so far, oldest first. -/
structure State (σ ρ : Type) where
  input : ExecuteRuleInput σ ρ
  component : σ
  finalErr : Option Error
  calls : List (GeneratedRequest σ ρ)

/-! ## Placement strategy -/

/-- A `strings.Builder`: the bytes written so far. -/
structure Builder where
  buf : GoString
  deriving DecidableEq, Repr

/-- The zero `strings.Builder`. -/
def Builder.empty : Builder := ⟨[]⟩

/-- The method `Grow` reserves capacity and changes no content. -/
def Builder.Grow (b : Builder) (_n : Nat) : Builder := b

/-- The method `WriteString` appends the bytes of `s`. -/
def Builder.WriteString (b : Builder) (s : GoString) : Builder := ⟨b.buf ++ s⟩

/-- The method `String` returns the accumulated bytes. -/
def Builder.String (b : Builder) : GoString := b.buf

/-- The method `executeReplaceRule`: replacement for a key and value. `input` is
accepted and not used, as in the source. -/
def Rule.executeReplaceRule {σ ρ : Type} (rule : Rule) (_input : ExecuteRuleInput σ ρ)
    (value replacement : GoString) : GoString :=
  let builder := Builder.empty
  let builder :=
    if rule.ruleType = prefixRuleType ∨ rule.ruleType = postfixRuleType then
      builder.Grow (value.length + replacement.length)
    else builder
  match rule.ruleType with
  | prefixRuleType =>
    let builder := builder.WriteString replacement
    let builder := builder.WriteString value
    builder.String
  | postfixRuleType =>
    let builder := builder.WriteString value
    let builder := builder.WriteString replacement
    builder.String
  | infixRuleType =>
    if value.length ≤ 1 then
      let builder := builder.WriteString value
      let builder := builder.WriteString replacement
      builder.String
    else
      let middleIndex := value.length / 2
      let builder := builder.WriteString (value.take middleIndex)
      let builder := builder.WriteString replacement
      let builder := builder.WriteString (value.drop middleIndex)
      builder.String
  | replaceRuleType => replacement
  | otherRuleType => []

/-! ## Value evaluator -/

/-- The method `executeEvaluate`: evaluates the payload for a key and value and
returns the value to place and the updated interaction URLs. The errors of both
`Evaluate` calls are dropped, as in the source. -/
def Rule.executeEvaluate {σ ρ : Type} (rule : Rule) (input : ExecuteRuleInput σ ρ)
    (_key value payload : GoString) (interactshURLs : List GoString) :
    GoString × List GoString :=
  let values := rule.options.MergeMaps
    [input.Values, [(bytes "value", value)], rule.options.Vars, rule.options.Variables]
  let firstpass := (rule.options.Evaluate payload values).1
  let replacedData := rule.options.Replace firstpass interactshURLs
  let interactData := replacedData.1
  let interactshURLs := replacedData.2
  let evaluated := (rule.options.Evaluate interactData values).1
  let replaced := rule.executeReplaceRule input value evaluated
  (replaced, interactshURLs)

/-! ## Request assembly and dispatch -/

/-- The method `buildInput`: assembles the generated request, attaches the
analyzer input when analyzers are present, and calls the sink. Returns the
error (`ErrNoMoreRequests` when the sink answers `false`) and the sink's calls
extended by this one. -/
def Rule.buildInput {σ ρ : Type} (_rule : Rule) (input : ExecuteRuleInput σ ρ)
    (calls : List (GeneratedRequest σ ρ)) (httpReq : ρ) (interactURLs : List GoString)
    (component : σ) (key value originalValue : GoString) :
    Option Error × List (GeneratedRequest σ ρ) :=
  let request : GeneratedRequest σ ρ :=
    { Request := httpReq
      InteractURLs := interactURLs
      DynamicValues := input.Values
      Component := component
      AnalyzerInput := none }
  let request : GeneratedRequest σ ρ :=
    if input.HasAnalyzers then
      { request with
        AnalyzerInput := some
          { Request := httpReq
            Component := component
            FinalArgs := input.Values
            Key := key
            Value := value
            OriginalValue := originalValue } }
    else request
  if !input.Callback calls request then
    (some Error.ErrNoMoreRequests, calls ++ [request])
  else
    (none, calls ++ [request])

/-! ## Rule engine -/

/-- Modelled from the spec: the method `Iterate` of the component interface. The
visitor has no result, so iteration cannot be cut short: it is called for every
key of the state the iteration starts from, in order, with the value the
component holds for that key at that moment. -/
def Component.Iterate {σ ρ : Type} (c : Component σ ρ)
    (callback : GoString → GoString → State σ ρ → State σ ρ) (st : State σ ρ) : State σ ρ :=
  (c.Keys st.component).foldl (fun st key => callback key (c.Value st.component key) st) st

/-- The closure that `executePartComponent` passes to `Iterate`. A `return`
inside the closure ends this call of the closure only. -/
def Rule.visitPart {σ ρ : Type} (rule : Rule) (payload : GoString) (c : Component σ ρ)
    (key value : GoString) (st : State σ ρ) : State σ ρ :=
  let valueStr := value
  if !rule.matchKeyOrValue key valueStr then st
  else
    let ev := rule.executeEvaluate st.input key valueStr payload st.input.InteractURLs
    let evaluated := ev.1
    let st := { st with input := { st.input with InteractURLs := ev.2 } }
    let set : σ × Option ComponentError :=
      if !st.input.HasAnalyzers then c.SetValue st.component key evaluated
      else (st.component, none)
    let st := { st with component := set.1 }
    if set.2.isSome then st
    else if rule.modeType = singleModeType then
      match c.Rebuild st.component with
      | .error _ => st
      | .ok req =>
        let r := rule.buildInput st.input st.calls req st.input.InteractURLs st.component
          key evaluated valueStr
        match r.1 with
        | some qerr => { st with finalErr := some qerr, calls := r.2 }
        | none =>
          { st with calls := r.2, component := (c.SetValue st.component key valueStr).1 }
    else st

/-- The method `executePartComponent`: executes the part rule on a component.
Returns the error (`none` for `nil`) and the final state: the input with its
accumulated `InteractURLs`, the component as left behind, and the sink's calls. -/
def Rule.executePartComponent {σ ρ : Type} (rule : Rule) (input : ExecuteRuleInput σ ρ)
    (payload : GoString) (c : Component σ ρ) (component : σ) : Option Error × State σ ρ :=
  let st := c.Iterate (rule.visitPart payload c)
    { input := input, component := component, finalErr := none, calls := [] }
  if st.finalErr.isSome then (st.finalErr, st)
  else if rule.modeType = multipleModeType then
    if st.input.HasAnalyzers then (some Error.analyzersNotSupported, st)
    else
      match c.Rebuild st.component with
      | .error err => (some (Error.component err), st)
      | .ok req =>
        let r := rule.buildInput st.input st.calls req st.input.InteractURLs st.component
          [] [] []
        match r.1 with
        | some qerr => (some qerr, { st with calls := r.2 })
        | none => (none, { st with calls := r.2 })
  else (none, st)

/-- The method `executePartRule`: executes part rules based on type. -/
def Rule.executePartRule {σ ρ : Type} (rule : Rule) (input : ExecuteRuleInput σ ρ)
    (payload : GoString) (c : Component σ ρ) (component : σ) : Option Error × State σ ρ :=
  rule.executePartComponent input payload c component

/-! ## A map-backed component -/

/-- Modelled from the spec: the in-memory state of a component as the spec's data
model describes it, an addressable key/value slice of a request: the keys in
their stable iteration order and the value each holds. -/
structure Parts where
  keys : List GoString
  vals : GoString → GoString

/-- The parts given by a list of bindings; an absent key reads as the empty string. -/
def Parts.ofList (l : List (GoString × GoString)) : Parts :=
  { keys := l.map Prod.fst
    vals := fun k => ((l.find? (fun p => p.1 = k)).map Prod.snd).getD [] }

/-- The parts listed as bindings, in iteration order. -/
def Parts.toList (p : Parts) : List (GoString × GoString) :=
  p.keys.map (fun k => (k, p.vals k))

/-- The state in which `key` holds `value` and every other key holds what it held. -/
def Parts.withValue (p : Parts) (key value : GoString) : Parts :=
  { p with vals := Function.update p.vals key value }

/-- Modelled from the spec: the setter of the component contract, which mutates
one key's value in place and fails with `InvalidKey` if the key does not exist. -/
def Parts.SetValue (p : Parts) (key value : GoString) : Parts × Option ComponentError :=
  if key ∈ p.keys then (p.withValue key value, none)
  else (p, some ComponentError.InvalidKey)

/-- Modelled from the spec: a component over `Parts`. The encoding of the parts
into a concrete request is not fixed by the contract, so `rebuild` is a
parameter. -/
def partsComponent {ρ : Type} (rebuild : Parts → Except ComponentError ρ) : Component Parts ρ :=
  { Keys := fun p => p.keys
    Value := fun p k => p.vals k
    SetValue := Parts.SetValue
    Rebuild := rebuild }

/-! ## Observations on a run -/

/-- The answers the sink gave to `calls`, in order, when it had already
received `seen`. -/
def sinkAnswersFrom {σ ρ : Type} (cb : List (GeneratedRequest σ ρ) → GeneratedRequest σ ρ → Bool) :
    List (GeneratedRequest σ ρ) → List (GeneratedRequest σ ρ) → List Bool
  | _, [] => []
  | seen, r :: rs => cb seen r :: sinkAnswersFrom cb (seen ++ [r]) rs

/-- The answers the sink gave to the calls of one invocation, in order. -/
def sinkAnswers {σ ρ : Type} (cb : List (GeneratedRequest σ ρ) → GeneratedRequest σ ρ → Bool)
    (calls : List (GeneratedRequest σ ρ)) : List Bool :=
  sinkAnswersFrom cb [] calls

/-- The keys among `ks` that satisfy the match predicate, in order, each with
its evaluated-and-placed value and the interaction URLs returned by its
evaluation; `vals` gives the value read for a key, and the URLs are threaded
from one matching key to the next. -/
def Rule.evalTrace {σ ρ : Type} (rule : Rule) (input : ExecuteRuleInput σ ρ) (payload : GoString)
    (vals : GoString → GoString) :
    List GoString → List GoString → List (GoString × GoString × List GoString)
  | [], _ => []
  | k :: ks, urls =>
    if rule.matchKeyOrValue k (vals k) then
      (k, (rule.executeEvaluate input k (vals k) payload urls).1,
          (rule.executeEvaluate input k (vals k) payload urls).2)
        :: evalTrace rule input payload vals ks
            (rule.executeEvaluate input k (vals k) payload urls).2
    else evalTrace rule input payload vals ks urls

/-- The interaction URLs after the last entry of a trace (`urls` when it is empty). -/
def traceURLs : List GoString → List (GoString × GoString × List GoString) → List GoString
  | urls, [] => urls
  | _, e :: t => traceURLs e.2.2 t

/-- The state in which every key of the trace holds the value the trace gives
it and every other key holds its value in `s`. -/
def Parts.withTrace (s : Parts) (t : List (GoString × GoString × List GoString)) : Parts :=
  { s with
    vals := fun k =>
      match t.find? (fun e => e.1 = k) with
      | some e => e.2.1
      | none => s.vals k }

/-! ## Example inputs -/

/-- Options whose evaluator and interaction client return their text unchanged. -/
def plainOptions : Options :=
  { Vars := []
    Variables := []
    MergeMaps := fun ms => ms.flatten
    Evaluate := fun t _ => (t, false)
    Replace := fun t urls => (t, urls) }

/-- A rule over `plainOptions`. -/
def plainRule (rt : RuleType) (mt : ModeType) (m : GoString → GoString → Bool) : Rule :=
  { ruleType := rt, modeType := mt, matchKeyOrValue := m, options := plainOptions }

/-- An input with no bindings and no URLs. -/
def plainInput {σ ρ : Type} (hasAnalyzers : Bool)
    (cb : List (GeneratedRequest σ ρ) → GeneratedRequest σ ρ → Bool) : ExecuteRuleInput σ ρ :=
  { Values := [], InteractURLs := [], HasAnalyzers := hasAnalyzers, Callback := cb }

/-- The parts `{a: 1, b: 2}`. -/
def partsAB : Parts := Parts.ofList [(bytes "a", bytes "1"), (bytes "b", bytes "2")]

/-- A rebuild that renders the parts as the list of their bindings. -/
def listRebuild : Parts → Except ComponentError (List (GoString × GoString)) :=
  fun p => .ok p.toList

/-- A rebuild that always fails. -/
def failingRebuild : Parts → Except ComponentError (List (GoString × GoString)) :=
  fun _ => .error ComponentError.BuildError

/-! ## Definitions used in the proofs -/

/-- The request `buildInput` assembles. -/
def Rule.builtRequest {σ ρ : Type} (input : ExecuteRuleInput σ ρ) (httpReq : ρ)
    (interactURLs : List GoString) (component : σ) (key value originalValue : GoString) :
    GeneratedRequest σ ρ :=
  { Request := httpReq
    InteractURLs := interactURLs
    DynamicValues := input.Values
    Component := component
    AnalyzerInput :=
      if input.HasAnalyzers then
        some
          { Request := httpReq
            Component := component
            FinalArgs := input.Values
            Key := key
            Value := value
            OriginalValue := originalValue }
      else none }

/-- The visitor from the point where `SetValue` has answered `set`: the state it
returns, given the evaluated value and the state with the reassigned URLs. -/
def Rule.afterSet {σ ρ : Type} (rule : Rule) (c : Component σ ρ)
    (key evaluated valueStr : GoString) (st : State σ ρ) (set : σ × Option ComponentError) :
    State σ ρ :=
  if set.2.isSome then { st with component := set.1 }
  else if rule.modeType = singleModeType then
    match c.Rebuild set.1 with
    | .error _ => { st with component := set.1 }
    | .ok req =>
      match (rule.buildInput st.input st.calls req st.input.InteractURLs set.1
          key evaluated valueStr).1 with
      | some qerr =>
        { st with
          component := set.1
          finalErr := some qerr
          calls := (rule.buildInput st.input st.calls req st.input.InteractURLs set.1
            key evaluated valueStr).2 }
      | none =>
        { st with
          calls := (rule.buildInput st.input st.calls req st.input.InteractURLs set.1
            key evaluated valueStr).2
          component := (c.SetValue set.1 key valueStr).1 }
  else { st with component := set.1 }

/-- The sink invariant of a run: `finalErr` is unset while the sink has answered
`true` to every call, and is the sentinel once it has answered `false`. -/
def SinkInv {σ ρ : Type} (cb : List (GeneratedRequest σ ρ) → GeneratedRequest σ ρ → Bool)
    (st : State σ ρ) : Prop :=
  st.input.Callback = cb
  ∧ ((st.finalErr = none ∧ false ∉ sinkAnswers cb st.calls)
    ∨ (st.finalErr = some Error.ErrNoMoreRequests ∧ false ∈ sinkAnswers cb st.calls))

/-- The state in which the iteration of `executePartComponent` ends. -/
def Rule.iterated {σ ρ : Type} (rule : Rule) (input : ExecuteRuleInput σ ρ)
    (payload : GoString) (c : Component σ ρ) (component : σ) : State σ ρ :=
  c.Iterate (rule.visitPart payload c)
    { input := input, component := component, finalErr := none, calls := [] }

/-! ## Resolution scope -/

/-- The binding of `key` in a map of variables, if it has one. -/
def lookupVar (m : VarMap) (key : GoString) : Option GoString :=
  (m.find? (fun p => p.1 = key)).map Prod.snd

/-- The map `m` after the Go assignment `m[key] = value`: `key` is bound to
`value`, and every other key keeps the binding it had. -/
def writeVar (m : VarMap) (key value : GoString) : VarMap :=
  (key, value) :: m.filter (fun p => p.1 ≠ key)

/-- The function `generators.MergeMaps`, whose package is not part of this file,
after what it does: it makes a new map and, taking the argument maps in order,
assigns every binding of each to it, so that a key bound by several maps ends
with the binding of the last of them. -/
def MergeMaps (maps : List VarMap) : VarMap :=
  maps.foldl (fun merged m => m.foldl (fun acc p => writeVar acc p.1 p.2) merged) []

/-- The resolution scope that `executeEvaluate` builds in its local `values`. -/
def Rule.values {σ ρ : Type} (rule : Rule) (input : ExecuteRuleInput σ ρ) (value : GoString) :
    VarMap :=
  rule.options.MergeMaps
    [input.Values, [(bytes "value", value)], rule.options.Vars, rule.options.Variables]

/-- Options that merge as `MergeMaps` does, with the given option-level and
runtime variables, and an evaluator that always reports an error and returns
the binding of its text in the scope (the text itself when it has none). -/
def lookupOptions (vars runtimeVars : VarMap) : Options :=
  { Vars := vars
    Variables := runtimeVars
    MergeMaps := MergeMaps
    Evaluate := fun t s => ((lookupVar s t).getD t, true)
    Replace := fun t urls => (t, urls ++ [t]) }

/-- A postfix rule over `lookupOptions` that matches every key. -/
def mergingRule (vars runtimeVars : VarMap) : Rule :=
  { ruleType := postfixRuleType, modeType := singleModeType,
    matchKeyOrValue := fun _ _ => true, options := lookupOptions vars runtimeVars }

/-- An input whose dynamic values bind `value` to `dyn`, `x` to `1` and `y` to `7`. -/
def collidingInput : ExecuteRuleInput Parts Unit :=
  { Values := [(bytes "value", bytes "dyn"), (bytes "x", bytes "1"), (bytes "y", bytes "7")],
    InteractURLs := [], HasAnalyzers := false, Callback := fun _ _ => true }

/-! ## Analyzer mode -/

/-- The requests dispatched in single mode with analyzers attached over the
parts `s`, for a trace and the outcome of `Rebuild` on `s`: none when `Rebuild`
fails, and otherwise one per trace entry, each rebuilt from `s` itself, with the
entry's key, its evaluated-and-placed value as `Value` and the value `s` holds
for the key as `OriginalValue` in the analyzer input. -/
def analyzerRequests {ρ : Type} (values : VarMap) (s : Parts)
    (t : List (GoString × GoString × List GoString)) :
    Except ComponentError ρ → List (GeneratedRequest Parts ρ)
  | .error _ => []
  | .ok req =>
    t.map (fun e =>
      { Request := req
        InteractURLs := e.2.2
        DynamicValues := values
        Component := s
        AnalyzerInput := some
          { Request := req
            Component := s
            FinalArgs := values
            Key := e.1
            Value := e.2.1
            OriginalValue := s.vals e.1 } })

/-- A rebuild that fails while the part `b` still holds `2`, and otherwise
renders the parts as the list of their bindings. -/
def rebuildUnlessB2 : Parts → Except ComponentError (List (GoString × GoString)) :=
  fun p => if p.vals (bytes "b") = bytes "2" then .error ComponentError.BuildError
    else .ok p.toList

/-! ## Interaction URLs along a run -/

/-- The pairs the iteration hands to the visitor, in order, when it runs over
the keys `ks` from the state `st`: each key with the value the component holds
for it when its turn comes. -/
def Rule.yielded {σ ρ : Type} (rule : Rule) (payload : GoString) (c : Component σ ρ) :
    List GoString → State σ ρ → List (GoString × GoString)
  | [], _ => []
  | k :: ks, st =>
    (k, c.Value st.component k)
      :: yielded rule payload c ks (rule.visitPart payload c k (c.Value st.component k) st)

/-- The evaluations of the matching pairs among `ps`, in order: each receives the
URL list returned by the one before it (`urls` for the first) and is recorded
with its key, its evaluated-and-placed value and the URL list it returned. -/
def Rule.evalPairs {σ ρ : Type} (rule : Rule) (input : ExecuteRuleInput σ ρ)
    (payload : GoString) :
    List (GoString × GoString) → List GoString → List (GoString × GoString × List GoString)
  | [], _ => []
  | p :: ps, urls =>
    if rule.matchKeyOrValue p.1 p.2 then
      (p.1, (rule.executeEvaluate input p.1 p.2 payload urls).1,
          (rule.executeEvaluate input p.1 p.2 payload urls).2)
        :: evalPairs rule input payload ps (rule.executeEvaluate input p.1 p.2 payload urls).2
    else evalPairs rule input payload ps urls

/-- The evaluations of one run of `executePartComponent`: those of the pairs its
iteration yields, threaded from the initial `input.InteractURLs`. -/
def Rule.runEvals {σ ρ : Type} (rule : Rule) (input : ExecuteRuleInput σ ρ)
    (payload : GoString) (c : Component σ ρ) (s : σ) :
    List (GoString × GoString × List GoString) :=
  rule.evalPairs input payload
    (rule.yielded payload c (c.Keys s)
      { input := input, component := s, finalErr := none, calls := [] })
    input.InteractURLs

/-- Options whose interaction client appends the text it is given to the URL
list, and whose evaluator returns its text unchanged. -/
def recordingOptions : Options :=
  { Vars := []
    Variables := []
    MergeMaps := fun ms => ms.flatten
    Evaluate := fun t _ => (t, false)
    Replace := fun t urls => (t, urls ++ [t]) }

/-- A postfix rule over `recordingOptions` that matches every key. -/
def recordingRule (mt : ModeType) : Rule :=
  { ruleType := postfixRuleType, modeType := mt, matchKeyOrValue := fun _ _ => true,
    options := recordingOptions }

/-- An input without analyzers whose URL list is `[u]`. -/
def inputWithURL (cb : List (GeneratedRequest Parts (List (GoString × GoString))) →
    GeneratedRequest Parts (List (GoString × GoString)) → Bool) :
    ExecuteRuleInput Parts (List (GoString × GoString)) :=
  { Values := [], InteractURLs := [bytes "u"], HasAnalyzers := false, Callback := cb }

/-! ## Two runs -/

/-- The state `st` with another sink in its input. -/
def State.withSink {σ ρ : Type} (st : State σ ρ)
    (cb : List (GeneratedRequest σ ρ) → GeneratedRequest σ ρ → Bool) : State σ ρ :=
  { st with input := { st.input with Callback := cb } }

/-! ## Rule engine: general lemmas -/

theorem buildInput_calls {σ ρ : Type} (rule : Rule) (input : ExecuteRuleInput σ ρ)
    (calls : List (GeneratedRequest σ ρ)) (req : ρ) (urls : List GoString) (comp : σ)
    (key value orig : GoString) :
    (rule.buildInput input calls req urls comp key value orig).2
      = calls ++ [Rule.builtRequest input req urls comp key value orig] := by
  unfold Rule.buildInput Rule.builtRequest
  cases input.HasAnalyzers <;> simp <;> split <;> rfl

theorem buildInput_err {σ ρ : Type} (rule : Rule) (input : ExecuteRuleInput σ ρ)
    (calls : List (GeneratedRequest σ ρ)) (req : ρ) (urls : List GoString) (comp : σ)
    (key value orig : GoString) :
    (rule.buildInput input calls req urls comp key value orig).1
      = if input.Callback calls (Rule.builtRequest input req urls comp key value orig)
        then none else some Error.ErrNoMoreRequests := by
  unfold Rule.buildInput Rule.builtRequest
  cases input.HasAnalyzers <;> simp <;> split <;> simp_all

theorem sinkAnswersFrom_append {σ ρ : Type}
    (cb : List (GeneratedRequest σ ρ) → GeneratedRequest σ ρ → Bool)
    (calls : List (GeneratedRequest σ ρ)) (r : GeneratedRequest σ ρ) :
    ∀ seen, sinkAnswersFrom cb seen (calls ++ [r])
      = sinkAnswersFrom cb seen calls ++ [cb (seen ++ calls) r] := by
  induction calls with
  | nil => intro seen; simp [sinkAnswersFrom]
  | cons c cs ih => intro seen; simp [sinkAnswersFrom, ih]

theorem sinkAnswers_append {σ ρ : Type}
    (cb : List (GeneratedRequest σ ρ) → GeneratedRequest σ ρ → Bool)
    (calls : List (GeneratedRequest σ ρ)) (r : GeneratedRequest σ ρ) :
    sinkAnswers cb (calls ++ [r]) = sinkAnswers cb calls ++ [cb calls r] := by
  simpa [sinkAnswers] using sinkAnswersFrom_append cb calls r []

theorem sinkAnswersFrom_length {σ ρ : Type}
    (cb : List (GeneratedRequest σ ρ) → GeneratedRequest σ ρ → Bool)
    (calls : List (GeneratedRequest σ ρ)) :
    ∀ seen, (sinkAnswersFrom cb seen calls).length = calls.length := by
  induction calls with
  | nil => intro seen; simp [sinkAnswersFrom]
  | cons c cs ih => intro seen; simp [sinkAnswersFrom, ih]

/-- A property kept by every call of the visitor is kept by the iteration. -/
theorem Iterate_invariant {σ ρ : Type} (c : Component σ ρ)
    (callback : GoString → GoString → State σ ρ → State σ ρ) (P : State σ ρ → Prop)
    (hstep : ∀ key value st, P st → P (callback key value st)) (st : State σ ρ) (h : P st) :
    P (c.Iterate callback st) := by
  unfold Component.Iterate
  generalize c.Keys st.component = ks
  induction ks generalizing st with
  | nil => simpa using h
  | cons k ks ih => simpa using ih _ (hstep _ _ _ h)

/-- The visitor changes nothing of the input but its `InteractURLs`. -/
theorem visitPart_input {σ ρ : Type} (rule : Rule) (payload : GoString) (c : Component σ ρ)
    (key value : GoString) (st : State σ ρ) :
    (rule.visitPart payload c key value st).input.Callback = st.input.Callback
    ∧ (rule.visitPart payload c key value st).input.HasAnalyzers = st.input.HasAnalyzers
    ∧ (rule.visitPart payload c key value st).input.Values = st.input.Values := by
  unfold Rule.visitPart
  simp only []
  split_ifs <;> try simp
  all_goals (split <;> try simp)
  all_goals (split <;> simp)

theorem visitPart_eq {σ ρ : Type} (rule : Rule) (payload : GoString) (c : Component σ ρ)
    (key value : GoString) (st : State σ ρ) :
    rule.visitPart payload c key value st
      = if !rule.matchKeyOrValue key value then st
        else rule.afterSet c key
          (rule.executeEvaluate st.input key value payload st.input.InteractURLs).1 value
          { st with
            input :=
              { st.input with
                InteractURLs :=
                  (rule.executeEvaluate st.input key value payload st.input.InteractURLs).2 } }
          (if !st.input.HasAnalyzers then
            c.SetValue st.component key
              (rule.executeEvaluate st.input key value payload st.input.InteractURLs).1
           else (st.component, none)) := by
  rfl

theorem afterSet_cases {σ ρ : Type} (rule : Rule) (c : Component σ ρ)
    (key evaluated valueStr : GoString) (st : State σ ρ) (set : σ × Option ComponentError) :
    ((rule.afterSet c key evaluated valueStr st set).calls = st.calls
      ∧ (rule.afterSet c key evaluated valueStr st set).finalErr = st.finalErr)
    ∨ (rule.modeType = singleModeType ∧ ∃ r,
        (rule.afterSet c key evaluated valueStr st set).calls = st.calls ++ [r]
        ∧ ((st.input.Callback st.calls r = true
            ∧ (rule.afterSet c key evaluated valueStr st set).finalErr = st.finalErr)
          ∨ (st.input.Callback st.calls r = false
            ∧ (rule.afterSet c key evaluated valueStr st set).finalErr
              = some Error.ErrNoMoreRequests))) := by
  unfold Rule.afterSet
  split
  · exact Or.inl ⟨rfl, rfl⟩
  split
  swap
  · exact Or.inl ⟨rfl, rfl⟩
  rename_i hmode
  split
  · exact Or.inl ⟨rfl, rfl⟩
  refine Or.inr ⟨hmode, ?_⟩
  split
  · rename_i qerr hq
    rw [buildInput_err] at hq
    refine ⟨_, buildInput_calls .., Or.inr ?_⟩
    split at hq
    · simp at hq
    · rename_i hfalse
      simp only [Option.some.injEq] at hq
      subst hq
      exact ⟨by simpa using hfalse, rfl⟩
  · rename_i hq
    rw [buildInput_err] at hq
    refine ⟨_, buildInput_calls .., Or.inl ?_⟩
    split at hq
    · rename_i htrue
      exact ⟨htrue, rfl⟩
    · simp at hq

/-- What one call of the visitor does to the sink's calls and to `finalErr`:
nothing, or one more call answered `true`, or one more call answered `false`
with `finalErr` set to the sentinel. The sink is called in single mode only. -/
theorem visitPart_cases {σ ρ : Type} (rule : Rule) (payload : GoString) (c : Component σ ρ)
    (key value : GoString) (st : State σ ρ) :
    ((rule.visitPart payload c key value st).calls = st.calls
      ∧ (rule.visitPart payload c key value st).finalErr = st.finalErr)
    ∨ (rule.modeType = singleModeType ∧ ∃ r,
        (rule.visitPart payload c key value st).calls = st.calls ++ [r]
        ∧ ((st.input.Callback st.calls r = true
            ∧ (rule.visitPart payload c key value st).finalErr = st.finalErr)
          ∨ (st.input.Callback st.calls r = false
            ∧ (rule.visitPart payload c key value st).finalErr
              = some Error.ErrNoMoreRequests))) := by
  rw [visitPart_eq]
  split
  · exact Or.inl ⟨rfl, rfl⟩
  · exact afterSet_cases rule c key _ value _ _

theorem visitPart_sinkInv {σ ρ : Type} (rule : Rule) (payload : GoString) (c : Component σ ρ)
    (cb : List (GeneratedRequest σ ρ) → GeneratedRequest σ ρ → Bool)
    (key value : GoString) (st : State σ ρ) (h : SinkInv cb st) :
    SinkInv cb (rule.visitPart payload c key value st) := by
  obtain ⟨hcb, hinv⟩ := h
  refine ⟨(visitPart_input rule payload c key value st).1.trans hcb, ?_⟩
  rcases visitPart_cases rule payload c key value st with ⟨hc, hf⟩ | ⟨_, r, hc, hr⟩
  · rw [hc, hf]; exact hinv
  · rw [hc, sinkAnswers_append, ← hcb]
    rcases hr with ⟨ht, hf⟩ | ⟨hfalse, hf⟩
    · rw [hf, ht]
      rcases hinv with ⟨h1, h2⟩ | ⟨h1, h2⟩
      · exact Or.inl ⟨h1, by simpa [hcb] using h2⟩
      · exact Or.inr ⟨h1, by simpa [hcb] using h2⟩
    · rw [hf, hfalse]
      exact Or.inr ⟨rfl, by simp⟩

/-- Outside single mode the visitor never calls the sink and never sets `finalErr`. -/
theorem visitPart_quiet {σ ρ : Type} (rule : Rule) (payload : GoString) (c : Component σ ρ)
    (hmode : rule.modeType ≠ singleModeType) (key value : GoString) (st : State σ ρ)
    (h : st.calls = [] ∧ st.finalErr = none) :
    (rule.visitPart payload c key value st).calls = []
    ∧ (rule.visitPart payload c key value st).finalErr = none := by
  rcases visitPart_cases rule payload c key value st with ⟨hc, hf⟩ | ⟨hm, _⟩
  · rw [hc, hf]; exact h
  · exact absurd hm hmode

theorem iterated_input {σ ρ : Type} (rule : Rule) (input : ExecuteRuleInput σ ρ)
    (payload : GoString) (c : Component σ ρ) (s : σ) :
    (rule.iterated input payload c s).input.Callback = input.Callback
    ∧ (rule.iterated input payload c s).input.HasAnalyzers = input.HasAnalyzers
    ∧ (rule.iterated input payload c s).input.Values = input.Values := by
  unfold Rule.iterated
  refine Iterate_invariant c _
    (fun st => st.input.Callback = input.Callback
      ∧ st.input.HasAnalyzers = input.HasAnalyzers ∧ st.input.Values = input.Values)
    ?_ _ ⟨rfl, rfl, rfl⟩
  intro key value st h
  obtain ⟨h1, h2, h3⟩ := visitPart_input rule payload c key value st
  exact ⟨h1.trans h.1, h2.trans h.2.1, h3.trans h.2.2⟩

theorem iterated_sinkInv {σ ρ : Type} (rule : Rule) (input : ExecuteRuleInput σ ρ)
    (payload : GoString) (c : Component σ ρ) (s : σ) :
    SinkInv input.Callback (rule.iterated input payload c s) := by
  unfold Rule.iterated
  refine Iterate_invariant c _ (SinkInv input.Callback) ?_ _ ?_
  · intro key value st h
    exact visitPart_sinkInv rule payload c input.Callback key value st h
  · exact ⟨rfl, Or.inl ⟨rfl, by simp [sinkAnswers, sinkAnswersFrom]⟩⟩

theorem iterated_quiet {σ ρ : Type} (rule : Rule) (input : ExecuteRuleInput σ ρ)
    (payload : GoString) (c : Component σ ρ) (s : σ) (hmode : rule.modeType ≠ singleModeType) :
    (rule.iterated input payload c s).calls = []
    ∧ (rule.iterated input payload c s).finalErr = none := by
  unfold Rule.iterated
  refine Iterate_invariant c _ (fun st => st.calls = [] ∧ st.finalErr = none) ?_ _ ⟨rfl, rfl⟩
  intro key value st h
  exact visitPart_quiet rule payload c hmode key value st h

/-- The body of `executePartComponent` after the iteration. -/
theorem executePartComponent_eq {σ ρ : Type} (rule : Rule) (input : ExecuteRuleInput σ ρ)
    (payload : GoString) (c : Component σ ρ) (s : σ) :
    rule.executePartComponent input payload c s
      = if (rule.iterated input payload c s).finalErr.isSome then
          ((rule.iterated input payload c s).finalErr, rule.iterated input payload c s)
        else if rule.modeType = multipleModeType then
          if (rule.iterated input payload c s).input.HasAnalyzers then
            (some Error.analyzersNotSupported, rule.iterated input payload c s)
          else
            match c.Rebuild (rule.iterated input payload c s).component with
            | .error err => (some (Error.component err), rule.iterated input payload c s)
            | .ok req =>
              ((rule.buildInput (rule.iterated input payload c s).input
                  (rule.iterated input payload c s).calls req
                  (rule.iterated input payload c s).input.InteractURLs
                  (rule.iterated input payload c s).component [] [] []).1,
               { rule.iterated input payload c s with
                 calls := (rule.buildInput (rule.iterated input payload c s).input
                  (rule.iterated input payload c s).calls req
                  (rule.iterated input payload c s).input.InteractURLs
                  (rule.iterated input payload c s).component [] [] []).2 })
        else (none, rule.iterated input payload c s) := by
  unfold Rule.executePartComponent Rule.iterated
  simp only []
  split
  · rfl
  split
  swap
  · rfl
  split
  · rfl
  split
  · rfl
  split <;> simp_all

/-- C5: with analyzers attached and the multiple mode, `executePartComponent`
returns the error `analyzers are not supported with multiple payloads`, which
is not the halt sentinel, and the sink is never called. -/
theorem executePartComponent_analyzers_multiple {σ ρ : Type} (rule : Rule)
    (input : ExecuteRuleInput σ ρ) (payload : GoString) (c : Component σ ρ) (s : σ)
    (hmode : rule.modeType = multipleModeType) (han : input.HasAnalyzers = true) :
    (rule.executePartComponent input payload c s).1 = some Error.analyzersNotSupported
    ∧ Error.analyzersNotSupported ≠ Error.ErrNoMoreRequests
    ∧ (rule.executePartComponent input payload c s).2.calls = [] := by
  have hne : rule.modeType ≠ singleModeType := by rw [hmode]; decide
  obtain ⟨hcalls, hfin⟩ := iterated_quiet rule input payload c s hne
  have hha := (iterated_input rule input payload c s).2.1
  rw [executePartComponent_eq]
  simp [hfin, hmode, hha, han, hcalls]

/-- With analyzers attached and the multiple mode over the parts `{a: 1, b: 2}`,
every key matching and a sink that would accept, the run is rejected and the
sink is not called. -/
theorem executePartComponent_analyzers_multiple_witness :
    ((plainRule postfixRuleType multipleModeType (fun _ _ => true)).executePartComponent
        (plainInput true (fun _ _ => true)) (bytes "X") (partsComponent listRebuild) partsAB).1
      = some Error.analyzersNotSupported
    ∧ Error.analyzersNotSupported ≠ Error.ErrNoMoreRequests
    ∧ ((plainRule postfixRuleType multipleModeType (fun _ _ => true)).executePartComponent
        (plainInput true (fun _ _ => true)) (bytes "X") (partsComponent listRebuild) partsAB).2.calls
      = [] :=
  executePartComponent_analyzers_multiple _ _ _ _ _ rfl rfl

/-- What `executePartComponent` returns, by the way it ends: the `finalErr` of
the iteration when that is set; otherwise, in multiple mode, the analyzer
error, the error of `Rebuild`, or the outcome of the one call of the sink; and
otherwise `nil` with the calls of the iteration. -/
theorem executePartComponent_outcome {σ ρ : Type} (rule : Rule) (input : ExecuteRuleInput σ ρ)
    (payload : GoString) (c : Component σ ρ) (s : σ) :
    ((rule.executePartComponent input payload c s).1 = some Error.ErrNoMoreRequests
      ∧ false ∈ sinkAnswers input.Callback (rule.executePartComponent input payload c s).2.calls)
    ∨ (false ∉ sinkAnswers input.Callback (rule.executePartComponent input payload c s).2.calls
      ∧ ((rule.executePartComponent input payload c s).1 = none
        ∨ (rule.modeType = multipleModeType ∧ input.HasAnalyzers = true
          ∧ (rule.executePartComponent input payload c s).1 = some Error.analyzersNotSupported)
        ∨ (rule.modeType = multipleModeType ∧ input.HasAnalyzers = false
          ∧ ∃ e, c.Rebuild (rule.executePartComponent input payload c s).2.component
              = Except.error e
            ∧ (rule.executePartComponent input payload c s).1 = some (Error.component e)))) := by
  obtain ⟨hcb, hinv⟩ := iterated_sinkInv rule input payload c s
  obtain ⟨_, hha, _⟩ := iterated_input rule input payload c s
  rw [executePartComponent_eq]
  rcases hinv with ⟨hnone, hall⟩ | ⟨hsome, hex⟩
  · simp only [hnone, Option.isSome_none, Bool.false_eq_true, if_false]
    split
    · rename_i hmode
      split
      · rename_i han
        rw [hha] at han
        exact Or.inr ⟨hall, Or.inr (Or.inl ⟨hmode, han, rfl⟩)⟩
      · rename_i han
        rw [hha] at han
        split
        · rename_i err herr
          exact Or.inr ⟨hall, Or.inr (Or.inr ⟨hmode, by simpa using han, err, herr, rfl⟩)⟩
        · rename_i req _
          simp only [buildInput_err, buildInput_calls, sinkAnswers_append, hcb]
          split
          · rename_i htrue
            refine Or.inr ⟨?_, Or.inl rfl⟩
            simpa [htrue] using hall
          · rename_i hfalse
            refine Or.inl ⟨by simp, ?_⟩
            simp only [List.mem_append, List.mem_singleton]
            right
            simpa using hfalse
    · exact Or.inr ⟨hall, Or.inl rfl⟩
  · rw [if_pos (by simp [hsome])]
    exact Or.inl ⟨hsome, hex⟩

/-- C6: in every mode `executePartComponent` returns the halt sentinel
`ErrNoMoreRequests` exactly when the sink answered `false` to one of the calls
it received; and in single mode the result is `nil` whenever the sink never
answered `false`, whatever `SetValue` and `Rebuild` did. -/
theorem executePartComponent_halt_iff {σ ρ : Type} (rule : Rule) (input : ExecuteRuleInput σ ρ)
    (payload : GoString) (c : Component σ ρ) (s : σ) :
    ((rule.executePartComponent input payload c s).1 = some Error.ErrNoMoreRequests
      ↔ false ∈ sinkAnswers input.Callback (rule.executePartComponent input payload c s).2.calls)
    ∧ (rule.modeType = singleModeType →
        false ∉ sinkAnswers input.Callback (rule.executePartComponent input payload c s).2.calls →
        (rule.executePartComponent input payload c s).1 = none) := by
  rcases executePartComponent_outcome rule input payload c s with
    ⟨h1, h2⟩ | ⟨h1, h2 | ⟨hm, _, h2⟩ | ⟨hm, _, e, _, h2⟩⟩
  · exact ⟨⟨fun _ => h2, fun _ => h1⟩, fun _ hn => absurd h2 hn⟩
  · exact ⟨⟨fun h => (by rw [h2] at h; cases h), fun h => absurd h h1⟩, fun _ _ => h2⟩
  · refine ⟨⟨fun h => (by rw [h2] at h; cases h), fun h => absurd h h1⟩, fun hs _ => ?_⟩
    rw [hm] at hs; cases hs
  · refine ⟨⟨fun h => (by rw [h2] at h; cases h), fun h => absurd h h1⟩, fun hs _ => ?_⟩
    rw [hm] at hs; cases hs

/-- Over the parts `{a: 1, b: 2}` in single mode with every key matching: a sink
that answers `false` to its second call makes the run return the sentinel, and
with a `Rebuild` that always fails the sink is never called and the run returns
`nil`. -/
theorem executePartComponent_halt_iff_witness :
    (((plainRule postfixRuleType singleModeType (fun _ _ => true)).executePartComponent
        (plainInput false (fun seen _ => seen.length = 0)) (bytes "X")
        (partsComponent listRebuild) partsAB).1 = some Error.ErrNoMoreRequests
      ↔ false ∈ sinkAnswers (fun seen _ => seen.length = 0)
        ((plainRule postfixRuleType singleModeType (fun _ _ => true)).executePartComponent
          (plainInput false (fun seen _ => seen.length = 0)) (bytes "X")
          (partsComponent listRebuild) partsAB).2.calls)
    ∧ ((plainRule postfixRuleType singleModeType (fun _ _ => true)).executePartComponent
        (plainInput false (fun _ _ => true)) (bytes "X")
        (partsComponent failingRebuild) partsAB).1 = none :=
  ⟨(executePartComponent_halt_iff _ _ _ _ _).1,
   (executePartComponent_halt_iff (plainRule postfixRuleType singleModeType (fun _ _ => true))
      (plainInput false (fun _ _ => true)) (bytes "X") (partsComponent failingRebuild)
      partsAB).2 rfl (by decide)⟩

/-- C7, as the code has it: `executePartComponent` returns a non-nil error only
if analyzers are combined with the multiple mode, or the sink answered `false`,
or, in multiple mode without analyzers, the final `Rebuild` failed (its error is
then the one returned). No failure of `SetValue`, and no failure of `Rebuild`
in single mode, makes the run return an error. -/
theorem executePartComponent_error_only_if {σ ρ : Type} (rule : Rule)
    (input : ExecuteRuleInput σ ρ) (payload : GoString) (c : Component σ ρ) (s : σ)
    (herr : (rule.executePartComponent input payload c s).1 ≠ none) :
    (rule.modeType = multipleModeType ∧ input.HasAnalyzers = true)
    ∨ false ∈ sinkAnswers input.Callback (rule.executePartComponent input payload c s).2.calls
    ∨ (rule.modeType = multipleModeType ∧ input.HasAnalyzers = false
      ∧ ∃ e, c.Rebuild (rule.executePartComponent input payload c s).2.component = Except.error e
        ∧ (rule.executePartComponent input payload c s).1 = some (Error.component e)) := by
  rcases executePartComponent_outcome rule input payload c s with
    ⟨_, h2⟩ | ⟨_, h2 | ⟨hm, ha, _⟩ | ⟨hm, ha, e, he, h2⟩⟩
  · exact Or.inr (Or.inl h2)
  · exact absurd h2 herr
  · exact Or.inl ⟨hm, ha⟩
  · exact Or.inr (Or.inr ⟨hm, ha, e, he, h2⟩)

/-- In multiple mode without analyzers over the parts `{a: 1, b: 2}`, a `Rebuild`
that fails makes the run return an error, and the third case is the one that
holds. -/
theorem executePartComponent_error_only_if_witness :
    ((plainRule postfixRuleType multipleModeType (fun _ _ => true)).executePartComponent
        (plainInput false (fun _ _ => true)) (bytes "X")
        (partsComponent failingRebuild) partsAB).1 ≠ none
    ∧ ((multipleModeType = multipleModeType ∧ false = true)
      ∨ false ∈ sinkAnswers (fun _ _ => true)
        ((plainRule postfixRuleType multipleModeType (fun _ _ => true)).executePartComponent
          (plainInput false (fun _ _ => true)) (bytes "X")
          (partsComponent failingRebuild) partsAB).2.calls
      ∨ (multipleModeType = multipleModeType ∧ false = false
        ∧ ∃ e, failingRebuild
            ((plainRule postfixRuleType multipleModeType (fun _ _ => true)).executePartComponent
              (plainInput false (fun _ _ => true)) (bytes "X")
              (partsComponent failingRebuild) partsAB).2.component = Except.error e
          ∧ ((plainRule postfixRuleType multipleModeType (fun _ _ => true)).executePartComponent
              (plainInput false (fun _ _ => true)) (bytes "X")
              (partsComponent failingRebuild) partsAB).1 = some (Error.component e))) :=
  ⟨by decide,
   executePartComponent_error_only_if
     (plainRule postfixRuleType multipleModeType (fun _ _ => true))
     (plainInput false (fun _ _ => true)) (bytes "X") (partsComponent failingRebuild) partsAB
     (by decide)⟩

/-- C7 as stated fails: in multiple mode without analyzers, with a `Rebuild` that
fails, `executePartComponent` returns a non-nil error although analyzers are
not attached and the sink was never called, so never answered `false`. -/
theorem executePartComponent_rebuild_error_counterexample :
    ((plainRule postfixRuleType multipleModeType (fun _ _ => true)).executePartComponent
        (plainInput false (fun _ _ => true)) (bytes "X")
        (partsComponent failingRebuild) partsAB).1 = some (Error.component ComponentError.BuildError)
    ∧ ¬ ((plainRule postfixRuleType multipleModeType (fun _ _ => true)).modeType = multipleModeType
        ∧ (plainInput (σ := Parts) (ρ := List (GoString × GoString)) false
            (fun _ _ => true)).HasAnalyzers = true)
    ∧ ((plainRule postfixRuleType multipleModeType (fun _ _ => true)).executePartComponent
        (plainInput false (fun _ _ => true)) (bytes "X")
        (partsComponent failingRebuild) partsAB).2.calls.length = 0 := by
  decide

/-! ## Single mode -/

theorem executeEvaluate_congr {σ ρ : Type} (rule : Rule) (input input2 : ExecuteRuleInput σ ρ)
    (h : input2.Values = input.Values) (key value payload : GoString) (urls : List GoString) :
    rule.executeEvaluate input2 key value payload urls
      = rule.executeEvaluate input key value payload urls := by
  simp [Rule.executeEvaluate, Rule.executeReplaceRule, h]

/-- One call of the visitor in single mode without analyzers, when `SetValue`
accepts the evaluated value, `Rebuild` succeeds and the sink answers `true`. -/
theorem visitPart_single_ok {σ ρ : Type} (rule : Rule) (payload : GoString)
    (c : Component σ ρ) (key value : GoString) (st : State σ ρ) (req : ρ)
    (hmode : rule.modeType = singleModeType) (han : st.input.HasAnalyzers = false)
    (hmatch : rule.matchKeyOrValue key value = true)
    (hset : (c.SetValue st.component key
      (rule.executeEvaluate st.input key value payload st.input.InteractURLs).1).2 = none)
    (hreb : c.Rebuild (c.SetValue st.component key
      (rule.executeEvaluate st.input key value payload st.input.InteractURLs).1).1 = .ok req)
    (hsink : ∀ r, st.input.Callback st.calls r = true) :
    rule.visitPart payload c key value st
      = { input :=
            { st.input with
              InteractURLs :=
                (rule.executeEvaluate st.input key value payload st.input.InteractURLs).2 }
          component :=
            (c.SetValue (c.SetValue st.component key
              (rule.executeEvaluate st.input key value payload st.input.InteractURLs).1).1
              key value).1
          finalErr := st.finalErr
          calls := st.calls ++
            [{ Request := req
               InteractURLs :=
                 (rule.executeEvaluate st.input key value payload st.input.InteractURLs).2
               DynamicValues := st.input.Values
               Component := (c.SetValue st.component key
                 (rule.executeEvaluate st.input key value payload st.input.InteractURLs).1).1
               AnalyzerInput := none }] } := by
  rw [visitPart_eq]
  simp only [hmatch, han, Bool.not_true, Bool.not_false, Bool.false_eq_true, if_false, if_true]
  unfold Rule.afterSet
  simp only [hset, Option.isSome_none, Bool.false_eq_true, if_false, hmode, if_true, hreb]
  simp only [buildInput_err, buildInput_calls, hsink, if_true, Rule.builtRequest, han,
    Bool.false_eq_true, if_false]

/-- The iteration in single mode without analyzers, over a component whose
`SetValue` accepts every key it iterates and whose value set back restores the
state: the sink is called once per trace entry, with the request rebuilt from
the state `SetValue` gives for that entry, and the component ends as it began. -/
theorem single_fold {σ ρ : Type} (rule : Rule) (input : ExecuteRuleInput σ ρ)
    (payload : GoString) (c : Component σ ρ) (build : σ → ρ) (s : σ)
    (hmode : rule.modeType = singleModeType)
    (hsink : ∀ seen r, input.Callback seen r = true)
    (hreb : ∀ p, c.Rebuild p = .ok (build p))
    (hset : ∀ k ∈ c.Keys s, ∀ v, (c.SetValue s k v).2 = none)
    (hback : ∀ k ∈ c.Keys s, ∀ v, (c.SetValue (c.SetValue s k v).1 k (c.Value s k)).1 = s) :
    ∀ (ks : List GoString), (∀ k ∈ ks, k ∈ c.Keys s) → ∀ (st : State σ ρ),
      st.component = s → st.input.HasAnalyzers = false → st.input.Values = input.Values →
      st.input.Callback = input.Callback →
      ks.foldl (fun st key => rule.visitPart payload c key (c.Value st.component key) st) st
        = { input :=
              { st.input with
                InteractURLs := traceURLs st.input.InteractURLs
                  (rule.evalTrace input payload (c.Value s) ks st.input.InteractURLs) }
            component := s
            finalErr := st.finalErr
            calls := st.calls ++
              (rule.evalTrace input payload (c.Value s) ks st.input.InteractURLs).map
                (fun t =>
                  { Request := build (c.SetValue s t.1 t.2.1).1
                    InteractURLs := t.2.2
                    DynamicValues := input.Values
                    Component := (c.SetValue s t.1 t.2.1).1
                    AnalyzerInput := none }) } := by
  intro ks
  induction ks with
  | nil =>
    intro _ st hc _ _ _
    obtain ⟨inp, comp, fe, calls⟩ := st
    simp only at hc
    subst comp
    simp [Rule.evalTrace, traceURLs]
  | cons k ks ih =>
    intro hks st hc hha hv hcb
    have hk : k ∈ c.Keys s := hks k (List.mem_cons_self _ _)
    have hks2 : ∀ k2 ∈ ks, k2 ∈ c.Keys s := fun k2 h2 => hks k2 (List.mem_cons_of_mem _ h2)
    obtain ⟨inp, comp, fe, calls⟩ := st
    simp only at hc hha hv hcb
    subst comp
    rw [List.foldl_cons]
    by_cases hmatch : rule.matchKeyOrValue k (c.Value s k) = true
    · rw [visitPart_single_ok rule payload c k (c.Value s k) _
        (build (c.SetValue s k
          (rule.executeEvaluate inp k (c.Value s k) payload inp.InteractURLs).1).1)
        hmode hha hmatch (hset k hk _) (hreb _) (fun r => by rw [hcb]; exact hsink _ r)]
      rw [ih hks2]
      · simp only [Rule.evalTrace, hmatch, if_true, traceURLs, List.map_cons,
          executeEvaluate_congr rule input inp hv, hv, List.append_assoc,
          List.singleton_append]
      · exact hback k hk _
      · exact hha
      · exact hv
      · exact hcb
    · rw [visitPart_eq]
      simp only [hmatch, Bool.not_false, if_true]
      rw [ih hks2 _ rfl hha hv hcb]
      simp only [Rule.evalTrace, hmatch, Bool.false_eq_true, if_false]

theorem evalTrace_keys {σ ρ : Type} (rule : Rule) (input : ExecuteRuleInput σ ρ)
    (payload : GoString) (vals : GoString → GoString) (ks : List GoString) :
    ∀ urls, (rule.evalTrace input payload vals ks urls).map (fun t => t.1)
      = ks.filter (fun k => rule.matchKeyOrValue k (vals k)) := by
  induction ks with
  | nil => intro urls; simp [Rule.evalTrace]
  | cons k ks ih =>
    intro urls
    by_cases hmatch : rule.matchKeyOrValue k (vals k) = true
    · simp [Rule.evalTrace, hmatch, ih]
    · simp [Rule.evalTrace, hmatch, ih]

theorem evalTrace_mem_key {σ ρ : Type} (rule : Rule) (input : ExecuteRuleInput σ ρ)
    (payload : GoString) (vals : GoString → GoString) (ks : List GoString)
    (urls : List GoString) (t : GoString × GoString × List GoString)
    (ht : t ∈ rule.evalTrace input payload vals ks urls) : t.1 ∈ ks := by
  have hmem : t.1 ∈ (rule.evalTrace input payload vals ks urls).map (fun t => t.1) :=
    List.mem_map_of_mem _ ht
  rw [evalTrace_keys] at hmem
  exact (List.mem_filter.mp hmem).1

theorem Parts.SetValue_of_mem (p : Parts) (key value : GoString) (h : key ∈ p.keys) :
    p.SetValue key value = (p.withValue key value, none) := by
  simp [Parts.SetValue, h]

theorem Parts.withValue_back (p : Parts) (key value : GoString) :
    (p.withValue key value).withValue key (p.vals key) = p := by
  cases p
  simp [Parts.withValue]

/-- C1: in single mode without analyzers over a map-backed component (whose
`SetValue` accepts every key it iterates), if `Rebuild` never fails and the sink
always answers `true`, then `executePartComponent` returns `nil`; the sink is
called once per key that satisfies the match predicate, in iteration order; the
request of the call for key `k` is rebuilt from the state in which `k` holds its
evaluated-and-placed value and every other key holds its original value; and
the component ends in its original state. -/
theorem executePartComponent_single_dispatch {ρ : Type} (rule : Rule)
    (input : ExecuteRuleInput Parts ρ) (payload : GoString)
    (rebuild : Parts → Except ComponentError ρ) (build : Parts → ρ) (s : Parts)
    (hmode : rule.modeType = singleModeType) (han : input.HasAnalyzers = false)
    (hsink : ∀ seen r, input.Callback seen r = true)
    (hreb : ∀ p, rebuild p = .ok (build p)) :
    (rule.executePartComponent input payload (partsComponent rebuild) s).1 = none
    ∧ (rule.executePartComponent input payload (partsComponent rebuild) s).2.calls
      = (rule.evalTrace input payload s.vals s.keys input.InteractURLs).map
          (fun t =>
            { Request := build (s.withValue t.1 t.2.1)
              InteractURLs := t.2.2
              DynamicValues := input.Values
              Component := s.withValue t.1 t.2.1
              AnalyzerInput := none })
    ∧ (rule.evalTrace input payload s.vals s.keys input.InteractURLs).map (fun t => t.1)
      = s.keys.filter (fun k => rule.matchKeyOrValue k (s.vals k))
    ∧ (rule.executePartComponent input payload (partsComponent rebuild) s).2.component = s := by
  have hfold := single_fold rule input payload (partsComponent rebuild) build s hmode hsink
    hreb
    (fun k hk v => by
      show (Parts.SetValue s k v).2 = none
      rw [Parts.SetValue_of_mem s k v hk])
    (fun k hk v => by
      show (Parts.SetValue (Parts.SetValue s k v).1 k (s.vals k)).1 = s
      rw [Parts.SetValue_of_mem s k v hk]
      show ((s.withValue k v).SetValue k (s.vals k)).1 = s
      rw [Parts.SetValue_of_mem (s.withValue k v) k _ hk]
      exact Parts.withValue_back s k v)
    s.keys (fun _ h => h)
    { input := input, component := s, finalErr := none, calls := [] } rfl han rfl rfl
  have hiter : rule.iterated input payload (partsComponent rebuild) s
      = { input :=
            { input with
              InteractURLs := traceURLs input.InteractURLs
                (rule.evalTrace input payload s.vals s.keys input.InteractURLs) }
          component := s
          finalErr := none
          calls := (rule.evalTrace input payload s.vals s.keys input.InteractURLs).map
            (fun t =>
              { Request := build (s.withValue t.1 t.2.1)
                InteractURLs := t.2.2
                DynamicValues := input.Values
                Component := s.withValue t.1 t.2.1
                AnalyzerInput := none }) } := by
    unfold Rule.iterated Component.Iterate
    refine hfold.trans ?_
    simp only [List.nil_append]
    congr 1
    apply List.map_congr_left
    intro t ht
    have hk : t.1 ∈ s.keys := evalTrace_mem_key rule input payload s.vals s.keys _ t ht
    show ({ Request := build (Parts.SetValue s t.1 t.2.1).1, InteractURLs := t.2.2,
            DynamicValues := input.Values, Component := (Parts.SetValue s t.1 t.2.1).1,
            AnalyzerInput := none } : GeneratedRequest Parts ρ) = _
    rw [Parts.SetValue_of_mem s t.1 t.2.1 hk]
  have hne : rule.modeType ≠ multipleModeType := by rw [hmode]; decide
  rw [executePartComponent_eq, hiter]
  simp only [Option.isSome_none, Bool.false_eq_true, if_false, hne]
  exact ⟨trivial, trivial, evalTrace_keys rule input payload s.vals s.keys _, trivial⟩

/-- Over the parts `{a: 1, b: 2}` with a predicate matching only `a`, payload `X`
and the postfix rule type, there is exactly one call of the sink, its request
shows `a` as `1X` and `b` as `2`, and the component is back in its original
state. -/
theorem executePartComponent_single_dispatch_witness :
    ((plainRule postfixRuleType singleModeType (fun k _ => decide (k = bytes "a"))).executePartComponent
        (plainInput false (fun _ _ => true)) (bytes "X") (partsComponent listRebuild) partsAB).1
      = none
    ∧ ((plainRule postfixRuleType singleModeType (fun k _ => decide (k = bytes "a"))).executePartComponent
        (plainInput false (fun _ _ => true)) (bytes "X") (partsComponent listRebuild)
        partsAB).2.calls.map (fun g => g.Request)
      = [[(bytes "a", bytes "1X"), (bytes "b", bytes "2")]]
    ∧ ((plainRule postfixRuleType singleModeType (fun k _ => decide (k = bytes "a"))).executePartComponent
        (plainInput false (fun _ _ => true)) (bytes "X") (partsComponent listRebuild)
        partsAB).2.component = partsAB :=
  have h := executePartComponent_single_dispatch
    (plainRule postfixRuleType singleModeType (fun k _ => decide (k = bytes "a")))
    (plainInput false (fun _ _ => true)) (bytes "X") listRebuild Parts.toList partsAB
    rfl rfl (fun _ _ => rfl) (fun _ => rfl)
  ⟨h.1, by rw [h.2.1]; decide, h.2.2.2⟩

/-! ## Multiple mode -/

theorem partsComponent_SetValue {ρ : Type} (rebuild : Parts → Except ComponentError ρ) :
    (partsComponent rebuild).SetValue = Parts.SetValue := rfl

theorem partsComponent_Rebuild {ρ : Type} (rebuild : Parts → Except ComponentError ρ) :
    (partsComponent rebuild).Rebuild = rebuild := rfl

/-- One call of the visitor outside single mode, without analyzers, over a
map-backed component and for a key it holds. -/
theorem visitPart_parts_multiple {ρ : Type} (rule : Rule) (payload : GoString)
    (rebuild : Parts → Except ComponentError ρ) (key : GoString) (st : State Parts ρ)
    (hmode : rule.modeType ≠ singleModeType) (han : st.input.HasAnalyzers = false)
    (hkey : key ∈ st.component.keys) :
    rule.visitPart payload (partsComponent rebuild) key (st.component.vals key) st
      = if rule.matchKeyOrValue key (st.component.vals key) then
          { st with
            input :=
              { st.input with
                InteractURLs := (rule.executeEvaluate st.input key (st.component.vals key)
                  payload st.input.InteractURLs).2 }
            component := st.component.withValue key
              (rule.executeEvaluate st.input key (st.component.vals key)
                payload st.input.InteractURLs).1 }
        else st := by
  rw [visitPart_eq]
  by_cases hmatch : rule.matchKeyOrValue key (st.component.vals key) = true
  · simp only [hmatch, han, Bool.not_true, Bool.not_false, Bool.false_eq_true, if_false,
      if_true]
    unfold Rule.afterSet
    simp only [partsComponent_SetValue, Parts.SetValue_of_mem _ _ _ hkey, Option.isSome_none,
      Bool.false_eq_true, if_false, hmode]
  · simp only [hmatch, Bool.not_false, if_true, Bool.false_eq_true, if_false]

theorem withTrace_cons (p : Parts) (k e : GoString) (u : List GoString)
    (t : List (GoString × GoString × List GoString))
    (hk : ∀ x ∈ t, x.1 ≠ k) :
    (p.withValue k e).withTrace t = p.withTrace ((k, e, u) :: t) := by
  cases p with
  | mk keys vals =>
    simp only [Parts.withTrace, Parts.withValue, Parts.mk.injEq, true_and]
    funext x
    by_cases hx : k = x
    · subst hx
      have hnone : t.find? (fun e => decide (e.1 = k)) = none := by
        rw [List.find?_eq_none]
        intro y hy
        simpa using hk y hy
      simp [hnone, List.find?_cons]
    · have hx2 : x ≠ k := fun h => hx h.symm
      simp [List.find?_cons, hx, Function.update_noteq hx2]

/-- The iteration outside single mode without analyzers, over a map-backed
component with pairwise distinct keys: the sink is not called, and every key
of the trace is left holding its evaluated-and-placed value. -/
theorem multiple_fold {ρ : Type} (rule : Rule) (input : ExecuteRuleInput Parts ρ)
    (payload : GoString) (rebuild : Parts → Except ComponentError ρ) (s : Parts)
    (hmode : rule.modeType ≠ singleModeType) :
    ∀ (ks : List GoString), ks.Nodup → (∀ k ∈ ks, k ∈ s.keys) → ∀ (st : State Parts ρ),
      st.component.keys = s.keys → (∀ k ∈ ks, st.component.vals k = s.vals k) →
      st.input.HasAnalyzers = false → st.input.Values = input.Values →
      ks.foldl (fun st key =>
          rule.visitPart payload (partsComponent rebuild) key
            ((partsComponent rebuild).Value st.component key) st) st
        = { st with
            input :=
              { st.input with
                InteractURLs := traceURLs st.input.InteractURLs
                  (rule.evalTrace input payload s.vals ks st.input.InteractURLs) }
            component := st.component.withTrace
              (rule.evalTrace input payload s.vals ks st.input.InteractURLs) } := by
  intro ks
  induction ks with
  | nil =>
    intro _ _ st _ _ _ _
    obtain ⟨inp, ⟨keys, vals⟩, fe, calls⟩ := st
    simp [Rule.evalTrace, traceURLs, Parts.withTrace]
  | cons k ks ih =>
    intro hnd hks st hkeys hvals hha hv
    have hk : k ∈ st.component.keys := by rw [hkeys]; exact hks k (List.mem_cons_self _ _)
    have hks2 : ∀ k2 ∈ ks, k2 ∈ s.keys := fun k2 h2 => hks k2 (List.mem_cons_of_mem _ h2)
    have hnd2 : ks.Nodup := (List.nodup_cons.mp hnd).2
    have hnotin : k ∉ ks := (List.nodup_cons.mp hnd).1
    have hvk : st.component.vals k = s.vals k := hvals k (List.mem_cons_self _ _)
    rw [List.foldl_cons]
    show List.foldl _ (rule.visitPart payload (partsComponent rebuild) k
      (st.component.vals k) st) ks = _
    rw [visitPart_parts_multiple rule payload rebuild k st hmode hha hk]
    by_cases hmatch : rule.matchKeyOrValue k (s.vals k) = true
    · rw [hvk]
      simp only [hmatch, if_true]
      rw [ih hnd2 hks2]
      · simp only [Rule.evalTrace, hmatch, if_true, traceURLs,
          executeEvaluate_congr rule input st.input hv]
        congr 1
        apply withTrace_cons
        intro x hx hxk
        exact hnotin (hxk ▸ evalTrace_mem_key rule input payload s.vals ks _ x hx)
      · exact hkeys
      · intro k2 hk2
        have hne : k2 ≠ k := fun h => hnotin (h ▸ hk2)
        show Function.update st.component.vals k _ k2 = s.vals k2
        rw [Function.update_noteq hne]
        exact hvals k2 (List.mem_cons_of_mem _ hk2)
      · exact hha
      · exact hv
    · rw [hvk]
      simp only [hmatch, Bool.false_eq_true, if_false]
      rw [ih hnd2 hks2 st hkeys (fun k2 hk2 => hvals k2 (List.mem_cons_of_mem _ hk2)) hha hv]
      simp only [Rule.evalTrace, hmatch, Bool.false_eq_true, if_false]

/-- C4: in multiple mode without analyzers over a map-backed component with
pairwise distinct keys (whose `SetValue` accepts every key it iterates), if
`Rebuild` does not fail and the sink answers `true`, then `executePartComponent`
returns `nil` and calls the sink exactly once, after the iteration, with the
request rebuilt from the state in which every key that satisfies the match
predicate holds its evaluated-and-placed value and every other key holds its
original value; the request carries no analyzer input, and the component is
left in that state. -/
theorem executePartComponent_multiple_dispatch {ρ : Type} (rule : Rule)
    (input : ExecuteRuleInput Parts ρ) (payload : GoString)
    (rebuild : Parts → Except ComponentError ρ) (build : Parts → ρ) (s : Parts)
    (hmode : rule.modeType = multipleModeType) (han : input.HasAnalyzers = false)
    (hkeys : s.keys.Nodup)
    (hsink : ∀ seen r, input.Callback seen r = true)
    (hreb : ∀ p, rebuild p = .ok (build p)) :
    (rule.executePartComponent input payload (partsComponent rebuild) s).1 = none
    ∧ (rule.executePartComponent input payload (partsComponent rebuild) s).2.calls
      = [{ Request :=
             build (s.withTrace (rule.evalTrace input payload s.vals s.keys input.InteractURLs))
           InteractURLs := traceURLs input.InteractURLs
             (rule.evalTrace input payload s.vals s.keys input.InteractURLs)
           DynamicValues := input.Values
           Component :=
             s.withTrace (rule.evalTrace input payload s.vals s.keys input.InteractURLs)
           AnalyzerInput := none }]
    ∧ (rule.evalTrace input payload s.vals s.keys input.InteractURLs).map (fun t => t.1)
      = s.keys.filter (fun k => rule.matchKeyOrValue k (s.vals k))
    ∧ (rule.executePartComponent input payload (partsComponent rebuild) s).2.component
      = s.withTrace (rule.evalTrace input payload s.vals s.keys input.InteractURLs) := by
  have hne : rule.modeType ≠ singleModeType := by rw [hmode]; decide
  have hiter : rule.iterated input payload (partsComponent rebuild) s
      = { input :=
            { input with
              InteractURLs := traceURLs input.InteractURLs
                (rule.evalTrace input payload s.vals s.keys input.InteractURLs) }
          component :=
            s.withTrace (rule.evalTrace input payload s.vals s.keys input.InteractURLs)
          finalErr := none
          calls := [] } :=
    multiple_fold rule input payload rebuild s hne s.keys hkeys (fun _ h => h)
      { input := input, component := s, finalErr := none, calls := [] } rfl (fun _ _ => rfl)
      han rfl
  rw [executePartComponent_eq, hiter]
  simp only [Option.isSome_none, Bool.false_eq_true, if_false, hmode, if_true, han,
    partsComponent_Rebuild, hreb]
  simp only [buildInput_err, buildInput_calls, hsink, if_true, Rule.builtRequest, han,
    Bool.false_eq_true, if_false, List.nil_append]
  exact ⟨trivial, trivial, evalTrace_keys rule input payload s.vals s.keys _, trivial⟩

/-- Over the parts `{a: 1, b: 2}` with every key matching, payload `X` and the
postfix rule type, there is exactly one call of the sink and its request shows
`a` as `1X` and `b` as `2X` together; the component is left so. -/
theorem executePartComponent_multiple_dispatch_witness :
    ((plainRule postfixRuleType multipleModeType (fun _ _ => true)).executePartComponent
        (plainInput false (fun _ _ => true)) (bytes "X") (partsComponent listRebuild) partsAB).1
      = none
    ∧ ((plainRule postfixRuleType multipleModeType (fun _ _ => true)).executePartComponent
        (plainInput false (fun _ _ => true)) (bytes "X") (partsComponent listRebuild)
        partsAB).2.calls.map (fun g => (g.Request, g.AnalyzerInput.isSome))
      = [([(bytes "a", bytes "1X"), (bytes "b", bytes "2X")], false)]
    ∧ ((plainRule postfixRuleType multipleModeType (fun _ _ => true)).executePartComponent
        (plainInput false (fun _ _ => true)) (bytes "X") (partsComponent listRebuild)
        partsAB).2.component.toList
      = [(bytes "a", bytes "1X"), (bytes "b", bytes "2X")] :=
  have h := executePartComponent_multiple_dispatch
    (plainRule postfixRuleType multipleModeType (fun _ _ => true))
    (plainInput false (fun _ _ => true)) (bytes "X") listRebuild Parts.toList partsAB
    rfl rfl (by decide) (fun _ _ => rfl) (fun _ => rfl)
  ⟨h.1, by rw [h.2.1]; decide, by rw [h.2.2.2]; decide⟩

/-! ## The halt path in single mode -/

/-- C2 at a concrete input: over the parts `{a: 1, b: 2}` in single mode with a
predicate matching only `a`, payload `X`, the postfix rule type and a sink that
answers `false`, the run returns the halt sentinel after one call of the sink
and leaves `a` holding the mutated `1X`, not its original `1`. -/
theorem executePartComponent_halt_leaves_mutation :
    ((plainRule postfixRuleType singleModeType (fun k _ => decide (k = bytes "a"))).executePartComponent
        (plainInput false (fun _ _ => false)) (bytes "X") (partsComponent listRebuild) partsAB).1
      = some Error.ErrNoMoreRequests
    ∧ ((plainRule postfixRuleType singleModeType (fun k _ => decide (k = bytes "a"))).executePartComponent
        (plainInput false (fun _ _ => false)) (bytes "X") (partsComponent listRebuild)
        partsAB).2.calls.length = 1
    ∧ partsAB.vals (bytes "a") = bytes "1"
    ∧ ((plainRule postfixRuleType singleModeType (fun k _ => decide (k = bytes "a"))).executePartComponent
        (plainInput false (fun _ _ => false)) (bytes "X") (partsComponent listRebuild)
        partsAB).2.component.vals (bytes "a") = bytes "1X" := by
  decide

/-- C3 at a concrete input: over the parts `{a: 1, b: 2}` in single mode with
every key matching, payload `X`, the postfix rule type and a sink that answers
`false` from its first call on, the sink is called twice: the key `b` is still
evaluated, mutated and dispatched after the sink has answered `false` for `a`,
and its request also carries the mutation of `a` that was not undone. -/
theorem executePartComponent_halt_continues :
    ((plainRule postfixRuleType singleModeType (fun _ _ => true)).executePartComponent
        (plainInput false (fun _ _ => false)) (bytes "X") (partsComponent listRebuild) partsAB).1
      = some Error.ErrNoMoreRequests
    ∧ sinkAnswers (fun _ _ => false)
        ((plainRule postfixRuleType singleModeType (fun _ _ => true)).executePartComponent
          (plainInput false (fun _ _ => false)) (bytes "X") (partsComponent listRebuild)
          partsAB).2.calls = [false, false]
    ∧ ((plainRule postfixRuleType singleModeType (fun _ _ => true)).executePartComponent
        (plainInput false (fun _ _ => false)) (bytes "X") (partsComponent listRebuild)
        partsAB).2.calls.map (fun g => g.Request)
      = [[(bytes "a", bytes "1X"), (bytes "b", bytes "2")],
         [(bytes "a", bytes "1X"), (bytes "b", bytes "2X")]] := by
  decide

/-! ## Placement strategy: theorems -/

/-- C8: with the infix rule type and a value of byte length `n ≥ 2`,
`executeReplaceRule` returns the first `n / 2` bytes of the value, then the
replacement, then the remaining bytes of the value. -/
theorem executeReplaceRule_infix_split {σ ρ : Type} (rule : Rule) (input : ExecuteRuleInput σ ρ)
    (value replacement : GoString) (hrule : rule.ruleType = infixRuleType)
    (hlen : 2 ≤ value.length) :
    rule.executeReplaceRule input value replacement
      = value.take (value.length / 2) ++ replacement ++ value.drop (value.length / 2) := by
  have hnot : ¬ value.length ≤ 1 := by omega
  simp [Rule.executeReplaceRule, hrule, hnot, Builder.WriteString, Builder.String,
    Builder.empty]

/-- The value `abcd` with replacement `X` gives `abXcd`, and for the value `abc`
of odd length the first half is the shorter one: `aXbc`. -/
theorem executeReplaceRule_infix_split_witness :
    (plainRule infixRuleType singleModeType (fun _ _ => true)).executeReplaceRule
        (plainInput (σ := Parts) (ρ := Unit) false (fun _ _ => true)) (bytes "abcd") (bytes "X")
      = bytes "abXcd"
    ∧ (plainRule infixRuleType singleModeType (fun _ _ => true)).executeReplaceRule
        (plainInput (σ := Parts) (ρ := Unit) false (fun _ _ => true)) (bytes "abc") (bytes "X")
      = bytes "aXbc" :=
  ⟨(executeReplaceRule_infix_split _ _ (bytes "abcd") (bytes "X") rfl (by decide)).trans
      (by decide),
   (executeReplaceRule_infix_split _ _ (bytes "abc") (bytes "X") rfl (by decide)).trans
      (by decide)⟩

/-- C9: with the infix rule type and a value of at most one byte,
`executeReplaceRule` returns the value followed by the replacement, which is
what the same rule with the postfix rule type returns. -/
theorem executeReplaceRule_infix_short {σ ρ : Type} (rule : Rule) (input : ExecuteRuleInput σ ρ)
    (value replacement : GoString) (hrule : rule.ruleType = infixRuleType)
    (hlen : value.length ≤ 1) :
    rule.executeReplaceRule input value replacement = value ++ replacement
    ∧ rule.executeReplaceRule input value replacement
      = ({ rule with ruleType := postfixRuleType }).executeReplaceRule input value replacement := by
  simp [Rule.executeReplaceRule, hrule, hlen, Builder.WriteString, Builder.String,
    Builder.empty, Builder.Grow]

/-- The empty value and the one-byte value `a` with replacement `X` give `X` and `aX`. -/
theorem executeReplaceRule_infix_short_witness :
    (plainRule infixRuleType singleModeType (fun _ _ => true)).executeReplaceRule
        (plainInput (σ := Parts) (ρ := Unit) false (fun _ _ => true)) [] (bytes "X")
      = bytes "X"
    ∧ (plainRule infixRuleType singleModeType (fun _ _ => true)).executeReplaceRule
        (plainInput (σ := Parts) (ρ := Unit) false (fun _ _ => true)) (bytes "a") (bytes "X")
      = bytes "aX" :=
  ⟨(executeReplaceRule_infix_short _ _ [] (bytes "X") rfl (by decide)).1.trans (by decide),
   (executeReplaceRule_infix_short _ _ (bytes "a") (bytes "X") rfl (by decide)).1.trans
      (by decide)⟩

/-- C10: with the prefix rule type `executeReplaceRule` returns the replacement
followed by the value, and with the postfix rule type the value followed by the
replacement. -/
theorem executeReplaceRule_affix {σ ρ : Type} (rule : Rule)
    (input : ExecuteRuleInput σ ρ) (value replacement : GoString) :
    (rule.ruleType = prefixRuleType →
      rule.executeReplaceRule input value replacement = replacement ++ value)
    ∧ (rule.ruleType = postfixRuleType →
      rule.executeReplaceRule input value replacement = value ++ replacement) := by
  constructor <;> intro hrule <;>
    simp [Rule.executeReplaceRule, hrule, Builder.WriteString, Builder.String,
      Builder.empty, Builder.Grow]

/-- The value `abc` with replacement `X` gives `Xabc` under the prefix rule type
and `abcX` under the postfix rule type. -/
theorem executeReplaceRule_affix_witness :
    (plainRule prefixRuleType singleModeType (fun _ _ => true)).executeReplaceRule
        (plainInput (σ := Parts) (ρ := Unit) false (fun _ _ => true)) (bytes "abc") (bytes "X")
      = bytes "Xabc"
    ∧ (plainRule postfixRuleType singleModeType (fun _ _ => true)).executeReplaceRule
        (plainInput (σ := Parts) (ρ := Unit) false (fun _ _ => true)) (bytes "abc") (bytes "X")
      = bytes "abcX" :=
  ⟨((executeReplaceRule_affix _ _ (bytes "abc") (bytes "X")).1 rfl).trans (by decide),
   ((executeReplaceRule_affix _ _ (bytes "abc") (bytes "X")).2 rfl).trans (by decide)⟩

/-! ## Placement strategy: the remaining rule types -/

/-- C11: with the replace rule type `executeReplaceRule` returns the replacement
unchanged, whatever the value. -/
theorem executeReplaceRule_replace {σ ρ : Type} (rule : Rule) (input : ExecuteRuleInput σ ρ)
    (value replacement : GoString) (hrule : rule.ruleType = replaceRuleType) :
    rule.executeReplaceRule input value replacement = replacement := by
  simp [Rule.executeReplaceRule, hrule]

/-- The values `abc` and the empty value with replacement `X` both give `X`. -/
theorem executeReplaceRule_replace_witness :
    (plainRule replaceRuleType singleModeType (fun _ _ => true)).executeReplaceRule
        (plainInput (σ := Parts) (ρ := Unit) false (fun _ _ => true)) (bytes "abc") (bytes "X")
      = bytes "X"
    ∧ (plainRule replaceRuleType singleModeType (fun _ _ => true)).executeReplaceRule
        (plainInput (σ := Parts) (ρ := Unit) false (fun _ _ => true)) [] (bytes "X")
      = bytes "X" :=
  ⟨executeReplaceRule_replace _ _ (bytes "abc") (bytes "X") rfl,
   executeReplaceRule_replace _ _ [] (bytes "X") rfl⟩

/-- C20: `executeReplaceRule` is a total function, and for a rule type that is
none of prefix, postfix, infix and replace it returns the empty string,
whatever the value and the replacement. -/
theorem executeReplaceRule_other {σ ρ : Type} (rule : Rule) (input : ExecuteRuleInput σ ρ)
    (value replacement : GoString) (h1 : rule.ruleType ≠ prefixRuleType)
    (h2 : rule.ruleType ≠ postfixRuleType) (h3 : rule.ruleType ≠ infixRuleType)
    (h4 : rule.ruleType ≠ replaceRuleType) :
    rule.executeReplaceRule input value replacement = [] := by
  cases hrt : rule.ruleType with
  | replaceRuleType => exact absurd hrt h4
  | prefixRuleType => exact absurd hrt h1
  | postfixRuleType => exact absurd hrt h2
  | infixRuleType => exact absurd hrt h3
  | otherRuleType => simp [Rule.executeReplaceRule, hrt]

/-- With a rule type outside the four named ones, the value `abc` and the
replacement `X` give the empty string. -/
theorem executeReplaceRule_other_witness :
    (plainRule otherRuleType singleModeType (fun _ _ => true)).executeReplaceRule
        (plainInput (σ := Parts) (ρ := Unit) false (fun _ _ => true)) (bytes "abc") (bytes "X")
      = [] :=
  executeReplaceRule_other _ _ (bytes "abc") (bytes "X") (by decide) (by decide) (by decide)
    (by decide)

/-! ## Value evaluator: theorems -/

/-- The value `executeEvaluate` returns, written out in terms of its scope. -/
theorem executeEvaluate_eq {σ ρ : Type} (rule : Rule) (input : ExecuteRuleInput σ ρ)
    (key value payload : GoString) (urls : List GoString) :
    rule.executeEvaluate input key value payload urls
      = (rule.executeReplaceRule input value
          (rule.options.Evaluate
            (rule.options.Replace (rule.options.Evaluate payload (rule.values input value)).1
              urls).1
            (rule.values input value)).1,
         (rule.options.Replace (rule.options.Evaluate payload (rule.values input value)).1
            urls).2) := by
  rfl

/-- C12: `executeEvaluate` is total and returns the placement, on the original
current value, of the string obtained by resolving the payload against the
scope, substituting the interaction placeholders, and resolving the result once
more against the same scope, together with the URL list the substitution
returned; whether the evaluator also reported an error, in either pass, makes
no difference to the result. -/
theorem executeEvaluate_two_pass {σ ρ : Type} (rule : Rule) (input : ExecuteRuleInput σ ρ)
    (key value payload : GoString) (urls : List GoString) :
    rule.executeEvaluate input key value payload urls
      = (rule.executeReplaceRule input value
          (rule.options.Evaluate
            (rule.options.Replace (rule.options.Evaluate payload (rule.values input value)).1
              urls).1
            (rule.values input value)).1,
         (rule.options.Replace (rule.options.Evaluate payload (rule.values input value)).1
            urls).2)
    ∧ ∀ flag : GoString → VarMap → Bool,
        ({ rule with
            options :=
              { rule.options with
                Evaluate := fun t s => ((rule.options.Evaluate t s).1, flag t s) } }
          ).executeEvaluate input key value payload urls
        = rule.executeEvaluate input key value payload urls := by
  refine ⟨executeEvaluate_eq rule input key value payload urls, fun flag => ?_⟩
  simp [Rule.executeEvaluate, Rule.executeReplaceRule]

/-- With an evaluator that reports an error on every call and resolves a text to
its binding in the scope: the payload `p` bound to `q`, and `q` bound to `r`,
under the postfix rule type on the value `1`, gives `1r`, and the URL list
`[u]` becomes `[u, q]`. -/
theorem executeEvaluate_two_pass_witness :
    ({ ruleType := postfixRuleType, modeType := singleModeType,
       matchKeyOrValue := fun _ _ => true,
       options := lookupOptions [(bytes "p", bytes "q")] [(bytes "q", bytes "r")] } : Rule
      ).executeEvaluate (plainInput (σ := Parts) (ρ := Unit) false (fun _ _ => true))
        (bytes "k") (bytes "1") (bytes "p") [bytes "u"]
      = (bytes "1r", [bytes "u", bytes "q"]) :=
  (executeEvaluate_two_pass _ _ (bytes "k") (bytes "1") (bytes "p") [bytes "u"]).1.trans
    (by decide)

theorem lookupVar_append (m1 m2 : VarMap) (key : GoString) :
    lookupVar (m1 ++ m2) key = (lookupVar m1 key).orElse (fun _ => lookupVar m2 key) := by
  unfold lookupVar
  rw [List.find?_append]
  cases List.find? (fun p => decide (p.1 = key)) m1 <;> simp

theorem lookupVar_singleton (k v key : GoString) :
    lookupVar [(k, v)] key = if k = key then some v else none := by
  unfold lookupVar
  by_cases hk : k = key <;> simp [List.find?_cons, hk]

theorem lookupVar_writeVar (m : VarMap) (k v key : GoString) :
    lookupVar (writeVar m k v) key = if k = key then some v else lookupVar m key := by
  unfold lookupVar writeVar
  by_cases hk : k = key
  · simp [List.find?_cons, hk]
  · have hpred : (fun a : GoString × GoString =>
          decide (decide (a.1 ≠ k) = true ∧ decide (a.1 = key) = true))
        = (fun a => decide (a.1 = key)) := by
      funext a
      by_cases h1 : a.1 = key
      · have h2 : a.1 ≠ k := fun h => hk (h ▸ h1)
        have h3 : ¬ key = k := fun h => hk h.symm
        simp [h1, h3]
      · simp [h1]
    rw [List.find?_cons_of_neg _ (by simpa using hk), List.find?_filter, hpred, if_neg hk]

/-- Assigning the bindings of `m`, in order, to a map: a key reads as its last
binding in `m` when `m` binds it, and as it read before otherwise. -/
theorem lookupVar_foldl_writeVar (m : VarMap) (key : GoString) :
    ∀ acc : VarMap,
      lookupVar (m.foldl (fun acc p => writeVar acc p.1 p.2) acc) key
        = (lookupVar m.reverse key).orElse (fun _ => lookupVar acc key) := by
  induction m with
  | nil => intro acc; simp [lookupVar]
  | cons p m ih =>
    intro acc
    rw [List.foldl_cons, ih, List.reverse_cons, lookupVar_append, lookupVar_writeVar,
      lookupVar_singleton]
    cases lookupVar m.reverse key <;> by_cases hp : p.1 = key <;> simp [Option.orElse, hp]

theorem lookupVar_none_of_not_mem (m : VarMap) (key : GoString)
    (h : key ∉ m.map Prod.fst) : lookupVar m key = none := by
  unfold lookupVar
  rw [Option.map_eq_none', List.find?_eq_none]
  intro q hq hqk
  exact h (List.mem_map.mpr ⟨q, hq, by simpa using hqk⟩)

/-- In a map, whose keys are pairwise distinct, the last binding of a key is its
binding. -/
theorem lookupVar_reverse (m : VarMap) (key : GoString) (h : (m.map Prod.fst).Nodup) :
    lookupVar m.reverse key = lookupVar m key := by
  induction m with
  | nil => rfl
  | cons p m ih =>
    rw [List.map_cons, List.nodup_cons] at h
    have hcons : lookupVar (p :: m) key
        = (lookupVar [p] key).orElse (fun _ => lookupVar m key) :=
      lookupVar_append [p] m key
    rw [List.reverse_cons, lookupVar_append, ih h.2, hcons, lookupVar_singleton]
    by_cases hp : p.1 = key
    · rw [lookupVar_none_of_not_mem m key (hp ▸ h.1)]
      simp [Option.orElse, hp]
    · cases lookupVar m key <;> simp [Option.orElse, hp]

/-- C13, as the code has it: `executeEvaluate` hands the sources to `MergeMaps`
in the order dynamic values, synthetic `value` binding, option-level variables,
runtime variables, and `MergeMaps` lets a later map overwrite an earlier one.
So in the resolution scope a key bound by several sources is bound to the
binding of the last source that binds it: the runtime variables come first,
then the option-level variables, then the synthetic `value` binding, and the
dynamic-values binding is the one the scope gives only when no other source
binds the key. -/
theorem values_last_source_wins {σ ρ : Type} (rule : Rule) (input : ExecuteRuleInput σ ρ)
    (value key : GoString) (hmerge : rule.options.MergeMaps = MergeMaps)
    (hvalues : (input.Values.map Prod.fst).Nodup)
    (hvars : (rule.options.Vars.map Prod.fst).Nodup)
    (hvariables : (rule.options.Variables.map Prod.fst).Nodup) :
    lookupVar (rule.values input value) key
      = (lookupVar rule.options.Variables key).orElse (fun _ =>
          (lookupVar rule.options.Vars key).orElse (fun _ =>
            (lookupVar [(bytes "value", value)] key).orElse (fun _ =>
              lookupVar input.Values key))) := by
  have hfour : MergeMaps
      [input.Values, [(bytes "value", value)], rule.options.Vars, rule.options.Variables]
      = rule.options.Variables.foldl (fun acc p => writeVar acc p.1 p.2)
          (rule.options.Vars.foldl (fun acc p => writeVar acc p.1 p.2)
            ([(bytes "value", value)].foldl (fun acc p => writeVar acc p.1 p.2)
              (input.Values.foldl (fun acc p => writeVar acc p.1 p.2) []))) := rfl
  have hnil : lookupVar [] key = none := rfl
  unfold Rule.values
  rw [hmerge, hfour, lookupVar_foldl_writeVar, lookupVar_foldl_writeVar,
    lookupVar_foldl_writeVar, lookupVar_foldl_writeVar, lookupVar_reverse _ _ hvalues,
    lookupVar_reverse _ _ hvars, lookupVar_reverse _ _ hvariables, List.reverse_singleton,
    hnil]
  cases lookupVar rule.options.Variables key <;> cases lookupVar rule.options.Vars key <;>
    cases lookupVar [(bytes "value", value)] key <;> cases lookupVar input.Values key <;>
    rfl

/-- With the dynamic values binding `value` to `dyn`, `x` to `1` and `y` to `7`,
the option-level variables binding `x` to `2` and the runtime variables binding
`x` to `3`, the scope built for the current value `cur` reads `x` as `3`,
`value` as `cur`, and `y`, which no other source binds, as `7`. -/
theorem values_last_source_wins_witness :
    lookupVar ((mergingRule [(bytes "x", bytes "2")] [(bytes "x", bytes "3")]).values
        collidingInput (bytes "cur")) (bytes "x") = some (bytes "3")
    ∧ lookupVar ((mergingRule [(bytes "x", bytes "2")] [(bytes "x", bytes "3")]).values
        collidingInput (bytes "cur")) (bytes "value") = some (bytes "cur")
    ∧ lookupVar ((mergingRule [(bytes "x", bytes "2")] [(bytes "x", bytes "3")]).values
        collidingInput (bytes "cur")) (bytes "y") = some (bytes "7") :=
  ⟨(values_last_source_wins (mergingRule [(bytes "x", bytes "2")] [(bytes "x", bytes "3")])
      collidingInput (bytes "cur") (bytes "x") rfl (by decide) (by decide) (by decide)).trans
      (by decide),
   (values_last_source_wins (mergingRule [(bytes "x", bytes "2")] [(bytes "x", bytes "3")])
      collidingInput (bytes "cur") (bytes "value") rfl (by decide) (by decide)
      (by decide)).trans (by decide),
   (values_last_source_wins (mergingRule [(bytes "x", bytes "2")] [(bytes "x", bytes "3")])
      collidingInput (bytes "cur") (bytes "y") rfl (by decide) (by decide) (by decide)).trans
      (by decide)⟩

/-- C13 as stated fails: with the dynamic values binding `value` to `dyn` and `x`
to `1`, the option-level variables binding `x` to `2` and the runtime variables
binding `x` to `3`, both keys are bound in `input.Values` and in another
source, and the scope built for the current value `cur` binds `value` to `cur`
and `x` to `3`, not to their dynamic-values bindings `dyn` and `1`. -/
theorem values_dynamic_loses_counterexample :
    lookupVar collidingInput.Values (bytes "value") = some (bytes "dyn")
    ∧ lookupVar ((mergingRule [(bytes "x", bytes "2")] [(bytes "x", bytes "3")]).values
        collidingInput (bytes "cur")) (bytes "value") = some (bytes "cur")
    ∧ lookupVar collidingInput.Values (bytes "x") = some (bytes "1")
    ∧ lookupVar ((mergingRule [(bytes "x", bytes "2")] [(bytes "x", bytes "3")]).values
        collidingInput (bytes "cur")) (bytes "x") = some (bytes "3") := by
  decide

/-! ## Keys that do not match -/

theorem visitPart_nomatch {σ ρ : Type} (rule : Rule) (payload : GoString) (c : Component σ ρ)
    (key value : GoString) (st : State σ ρ) (hmatch : rule.matchKeyOrValue key value = false) :
    rule.visitPart payload c key value st = st := by
  rw [visitPart_eq]
  simp [hmatch]

theorem iterated_nomatch {σ ρ : Type} (rule : Rule) (input : ExecuteRuleInput σ ρ)
    (payload : GoString) (c : Component σ ρ) (s : σ)
    (hno : ∀ k ∈ c.Keys s, rule.matchKeyOrValue k (c.Value s k) = false) :
    rule.iterated input payload c s
      = { input := input, component := s, finalErr := none, calls := [] } := by
  have hfold : ∀ (ks : List GoString),
      (∀ k ∈ ks, rule.matchKeyOrValue k (c.Value s k) = false) →
      ∀ st : State σ ρ, st.component = s →
      ks.foldl (fun st key => rule.visitPart payload c key (c.Value st.component key) st) st
        = st := by
    intro ks
    induction ks with
    | nil => intro _ st _; rfl
    | cons k ks ih =>
      intro hks st hc
      rw [List.foldl_cons, hc, visitPart_nomatch rule payload c k _ st
        (hks k (List.mem_cons_self _ _))]
      exact ih (fun k2 h2 => hks k2 (List.mem_cons_of_mem _ h2)) st hc
  unfold Rule.iterated Component.Iterate
  exact hfold _ hno _ rfl

/-- C15: for a key that does not satisfy the match predicate the visitor returns
the state it was given, so nothing is evaluated, `SetValue` is not called, and
the component and the accumulated interaction URLs stay as they were; and a
single-mode run in which no key matches returns `nil`, calls the sink not at
all, and leaves the component and `input.InteractURLs` unchanged. -/
theorem executePartComponent_nonmatching {σ ρ : Type} (rule : Rule) (payload : GoString)
    (c : Component σ ρ) :
    (∀ (key value : GoString) (st : State σ ρ), rule.matchKeyOrValue key value = false →
      rule.visitPart payload c key value st = st)
    ∧ (∀ (input : ExecuteRuleInput σ ρ) (s : σ), rule.modeType = singleModeType →
      (∀ k ∈ c.Keys s, rule.matchKeyOrValue k (c.Value s k) = false) →
      rule.executePartComponent input payload c s
        = (none, { input := input, component := s, finalErr := none, calls := [] })) := by
  refine ⟨fun key value st h => visitPart_nomatch rule payload c key value st h, ?_⟩
  intro input s hmode hno
  have hne : rule.modeType ≠ multipleModeType := by rw [hmode]; decide
  rw [executePartComponent_eq, iterated_nomatch rule input payload c s hno]
  simp [hne]

/-- Over the parts `{a: 1, b: 2}` in single mode with a predicate that matches no
key, the run returns `nil` with no call of the sink, the component as it was
and the URL list `[u]` as it was. -/
theorem executePartComponent_nonmatching_witness :
    (plainRule postfixRuleType singleModeType (fun _ _ => false)).executePartComponent
        ({ Values := [], InteractURLs := [bytes "u"], HasAnalyzers := false,
           Callback := fun _ _ => true } :
          ExecuteRuleInput Parts (List (GoString × GoString)))
        (bytes "X") (partsComponent listRebuild) partsAB
      = (none,
         { input :=
             { Values := [], InteractURLs := [bytes "u"], HasAnalyzers := false,
               Callback := fun _ _ => true }
           component := partsAB, finalErr := none, calls := [] }) :=
  (executePartComponent_nonmatching
    (plainRule postfixRuleType singleModeType (fun _ _ => false)) (bytes "X")
    (partsComponent listRebuild)).2 _ partsAB rfl (fun _ _ => rfl)

/-- C19: in multiple mode without analyzers, when no key satisfies the match
predicate (an empty component included) and `Rebuild` succeeds on the component,
the sink is still called exactly once, with the request rebuilt from the
unmodified component and no analyzer input; the result is `nil` when the sink
answers `true` and the halt sentinel when it answers `false`. -/
theorem executePartComponent_multiple_no_match {σ ρ : Type} (rule : Rule)
    (input : ExecuteRuleInput σ ρ) (payload : GoString) (c : Component σ ρ) (s : σ) (req : ρ)
    (hmode : rule.modeType = multipleModeType) (han : input.HasAnalyzers = false)
    (hno : ∀ k ∈ c.Keys s, rule.matchKeyOrValue k (c.Value s k) = false)
    (hreb : c.Rebuild s = .ok req) :
    (rule.executePartComponent input payload c s).2.calls
      = [{ Request := req
           InteractURLs := input.InteractURLs
           DynamicValues := input.Values
           Component := s
           AnalyzerInput := none }]
    ∧ (rule.executePartComponent input payload c s).2.component = s
    ∧ (rule.executePartComponent input payload c s).1
      = if input.Callback []
            { Request := req
              InteractURLs := input.InteractURLs
              DynamicValues := input.Values
              Component := s
              AnalyzerInput := none }
        then none else some Error.ErrNoMoreRequests := by
  rw [executePartComponent_eq, iterated_nomatch rule input payload c s hno]
  simp only [Option.isSome_none, Bool.false_eq_true, if_false, hmode, if_true, han, hreb,
    buildInput_err, buildInput_calls, Rule.builtRequest, List.nil_append]
  exact ⟨trivial, trivial, trivial⟩

/-- Over the parts `{a: 1, b: 2}` in multiple mode with a predicate that matches
no key, payload `X` and a sink that answers `true`: the sink is called once,
with the request rebuilt from the unmodified parts and no analyzer input, the
component is unchanged and the run returns `nil`; the same holds over the empty
component. -/
theorem executePartComponent_multiple_no_match_witness :
    ((plainRule postfixRuleType multipleModeType (fun _ _ => false)).executePartComponent
        (plainInput false (fun _ _ => true)) (bytes "X") (partsComponent listRebuild)
        partsAB).2.calls.map (fun g => (g.Request, g.AnalyzerInput.isSome))
      = [([(bytes "a", bytes "1"), (bytes "b", bytes "2")], false)]
    ∧ ((plainRule postfixRuleType multipleModeType (fun _ _ => false)).executePartComponent
        (plainInput false (fun _ _ => true)) (bytes "X") (partsComponent listRebuild)
        partsAB).2.component = partsAB
    ∧ ((plainRule postfixRuleType multipleModeType (fun _ _ => false)).executePartComponent
        (plainInput false (fun _ _ => true)) (bytes "X") (partsComponent listRebuild)
        partsAB).1 = none
    ∧ ((plainRule postfixRuleType multipleModeType (fun _ _ => false)).executePartComponent
        (plainInput false (fun _ _ => true)) (bytes "X") (partsComponent listRebuild)
        (Parts.ofList [])).2.calls.map (fun g => g.Request) = [[]] :=
  have h := executePartComponent_multiple_no_match
    (plainRule postfixRuleType multipleModeType (fun _ _ => false))
    (plainInput false (fun _ _ => true)) (bytes "X") (partsComponent listRebuild)
    partsAB [(bytes "a", bytes "1"), (bytes "b", bytes "2")] rfl rfl (fun _ _ => rfl) rfl
  have h0 := executePartComponent_multiple_no_match
    (plainRule postfixRuleType multipleModeType (fun _ _ => false))
    (plainInput false (fun _ _ => true)) (bytes "X") (partsComponent listRebuild)
    (Parts.ofList []) [] rfl rfl (fun _ _ => rfl) rfl
  ⟨by rw [h.1]; rfl, h.2.1, h.2.2, by rw [h0.1]; rfl⟩

/-! ## What a visit of a matching key does -/

theorem afterSet_shape {σ ρ : Type} (rule : Rule) (c : Component σ ρ)
    (key evaluated valueStr : GoString) (st : State σ ρ) (set : σ × Option ComponentError) :
    (rule.afterSet c key evaluated valueStr st set).input = st.input
    ∧ ((rule.afterSet c key evaluated valueStr st set).calls = st.calls
      ∨ (rule.modeType = singleModeType ∧ ∃ req,
          (rule.afterSet c key evaluated valueStr st set).calls
            = st.calls ++ [Rule.builtRequest st.input req st.input.InteractURLs set.1
                key evaluated valueStr])) := by
  unfold Rule.afterSet
  split
  · exact ⟨rfl, Or.inl rfl⟩
  split
  swap
  · exact ⟨rfl, Or.inl rfl⟩
  rename_i hmode
  split
  · exact ⟨rfl, Or.inl rfl⟩
  rename_i req _
  split
  · exact ⟨rfl, Or.inr ⟨hmode, req, buildInput_calls ..⟩⟩
  · exact ⟨rfl, Or.inr ⟨hmode, req, buildInput_calls ..⟩⟩

/-- A visit of a matching key reassigns `input.InteractURLs` to the list its
evaluation returned, on every path through the closure, and calls the sink at
most once, in single mode only, with a request that carries that list. -/
theorem visitPart_match {σ ρ : Type} (rule : Rule) (payload : GoString) (c : Component σ ρ)
    (key value : GoString) (st : State σ ρ) (hmatch : rule.matchKeyOrValue key value = true) :
    (rule.visitPart payload c key value st).input
      = { st.input with
          InteractURLs :=
            (rule.executeEvaluate st.input key value payload st.input.InteractURLs).2 }
    ∧ ((rule.visitPart payload c key value st).calls = st.calls
      ∨ (rule.modeType = singleModeType ∧ ∃ req comp,
          (rule.visitPart payload c key value st).calls
            = st.calls ++ [Rule.builtRequest st.input req
                (rule.executeEvaluate st.input key value payload st.input.InteractURLs).2 comp
                key (rule.executeEvaluate st.input key value payload st.input.InteractURLs).1
                value])) := by
  rw [visitPart_eq]
  simp only [hmatch, Bool.not_true, Bool.false_eq_true, if_false]
  obtain ⟨h1, h2⟩ := afterSet_shape rule c key
    (rule.executeEvaluate st.input key value payload st.input.InteractURLs).1 value
    { st with
      input :=
        { st.input with
          InteractURLs :=
            (rule.executeEvaluate st.input key value payload st.input.InteractURLs).2 } }
    (if !st.input.HasAnalyzers then
      c.SetValue st.component key
        (rule.executeEvaluate st.input key value payload st.input.InteractURLs).1
     else (st.component, none))
  refine ⟨h1, ?_⟩
  rcases h2 with h2 | ⟨hmode, req, h2⟩
  · exact Or.inl h2
  · exact Or.inr ⟨hmode, req, _, h2⟩

/-- In single mode the state `executePartComponent` returns is the one the
iteration ends in. -/
theorem executePartComponent_single_state {σ ρ : Type} (rule : Rule)
    (input : ExecuteRuleInput σ ρ) (payload : GoString) (c : Component σ ρ) (s : σ)
    (hmode : rule.modeType = singleModeType) :
    (rule.executePartComponent input payload c s).2 = rule.iterated input payload c s := by
  have hne : rule.modeType ≠ multipleModeType := by rw [hmode]; decide
  rw [executePartComponent_eq]
  split
  · rfl
  · simp [hne]

/-- Every request passed to the sink carries an analyzer input exactly when
analyzers are attached. -/
theorem iterated_analyzerInput {σ ρ : Type} (rule : Rule) (input : ExecuteRuleInput σ ρ)
    (payload : GoString) (c : Component σ ρ) (s : σ) :
    ∀ g ∈ (rule.iterated input payload c s).calls,
      g.AnalyzerInput.isSome = input.HasAnalyzers := by
  have h := Iterate_invariant c (rule.visitPart payload c)
    (fun st => st.input.HasAnalyzers = input.HasAnalyzers
      ∧ ∀ g ∈ st.calls, g.AnalyzerInput.isSome = input.HasAnalyzers)
    (by
      intro key value st ⟨hha, hcalls⟩
      refine ⟨(visitPart_input rule payload c key value st).2.1.trans hha, ?_⟩
      by_cases hmatch : rule.matchKeyOrValue key value = true
      · rcases (visitPart_match rule payload c key value st hmatch).2 with
          h | ⟨_, req, comp, h⟩
        · rw [h]; exact hcalls
        · rw [h]
          intro g hg
          rcases List.mem_append.mp hg with hg | hg
          · exact hcalls g hg
          · rw [List.mem_singleton.mp hg]
            simp only [Rule.builtRequest, hha]
            cases input.HasAnalyzers <;> rfl
      · rw [visitPart_nomatch rule payload c key value st (by simpa using hmatch)]
        exact hcalls)
    { input := input, component := s, finalErr := none, calls := [] }
    ⟨rfl, fun g hg => by cases hg⟩
  exact h.2

/-! ## Single mode with analyzers -/

theorem Parts.SetValue_same (p : Parts) (key : GoString) :
    (p.SetValue key (p.vals key)).1 = p := by
  unfold Parts.SetValue
  split
  · cases p
    simp [Parts.withValue]
  · rfl

theorem analyzerRequests_cons {ρ : Type} (values : VarMap) (s : Parts)
    (e : GoString × GoString × List GoString) (t : List (GoString × GoString × List GoString))
    (r : Except ComponentError ρ) :
    analyzerRequests values s (e :: t) r
      = analyzerRequests values s [e] r ++ analyzerRequests values s t r := by
  cases r <;> simp [analyzerRequests]

/-- One visit of a matching key in single mode with analyzers attached, over a
map-backed component: the component is not touched, and the sink is called
with the request rebuilt from it when `Rebuild` succeeds. -/
theorem visitPart_parts_analyzers {ρ : Type} (rule : Rule) (payload : GoString)
    (rebuild : Parts → Except ComponentError ρ) (key : GoString) (st : State Parts ρ)
    (hmode : rule.modeType = singleModeType) (han : st.input.HasAnalyzers = true)
    (hmatch : rule.matchKeyOrValue key (st.component.vals key) = true) :
    ∃ fe, rule.visitPart payload (partsComponent rebuild) key (st.component.vals key) st
      = { input :=
            { st.input with
              InteractURLs := (rule.executeEvaluate st.input key (st.component.vals key)
                payload st.input.InteractURLs).2 }
          component := st.component
          finalErr := fe
          calls := st.calls ++ analyzerRequests st.input.Values st.component
            [(key,
              (rule.executeEvaluate st.input key (st.component.vals key)
                payload st.input.InteractURLs).1,
              (rule.executeEvaluate st.input key (st.component.vals key)
                payload st.input.InteractURLs).2)]
            (rebuild st.component) } := by
  rw [visitPart_eq]
  simp only [hmatch, han, Bool.not_true, Bool.false_eq_true, if_false]
  unfold Rule.afterSet
  simp only [Option.isSome_none, Bool.false_eq_true, if_false, hmode, if_true,
    partsComponent_Rebuild, partsComponent_SetValue, Parts.SetValue_same]
  cases hreb : rebuild st.component with
  | error e =>
    refine ⟨st.finalErr, ?_⟩
    simp [analyzerRequests]
  | ok req =>
    simp only [buildInput_err, buildInput_calls, Rule.builtRequest, han, if_true,
      analyzerRequests, List.map_cons, List.map_nil]
    split
    · rename_i h
      split at h
      · cases h
      · exact ⟨_, rfl⟩
    · exact ⟨_, rfl⟩

theorem analyzers_fold {ρ : Type} (rule : Rule) (input : ExecuteRuleInput Parts ρ)
    (payload : GoString) (rebuild : Parts → Except ComponentError ρ) (s : Parts)
    (hmode : rule.modeType = singleModeType) :
    ∀ (ks : List GoString) (st : State Parts ρ),
      st.component = s → st.input.HasAnalyzers = true → st.input.Values = input.Values →
      ∃ fe,
        ks.foldl (fun st key =>
            rule.visitPart payload (partsComponent rebuild) key
              ((partsComponent rebuild).Value st.component key) st) st
          = { input :=
                { st.input with
                  InteractURLs := traceURLs st.input.InteractURLs
                    (rule.evalTrace input payload s.vals ks st.input.InteractURLs) }
              component := s
              finalErr := fe
              calls := st.calls ++ analyzerRequests input.Values s
                (rule.evalTrace input payload s.vals ks st.input.InteractURLs) (rebuild s) } := by
  intro ks
  induction ks with
  | nil =>
    intro st hc _ _
    obtain ⟨inp, comp, fe, calls⟩ := st
    simp only at hc
    subst comp
    refine ⟨fe, ?_⟩
    cases hreb : rebuild s <;> simp [Rule.evalTrace, traceURLs, analyzerRequests]
  | cons k ks ih =>
    intro st hc hha hv
    obtain ⟨inp, comp, fe, calls⟩ := st
    simp only at hc hha hv
    subst comp
    rw [List.foldl_cons]
    show ∃ fe2, List.foldl _ (rule.visitPart payload (partsComponent rebuild) k (s.vals k)
      { input := inp, component := s, finalErr := fe, calls := calls }) ks = _
    by_cases hmatch : rule.matchKeyOrValue k (s.vals k) = true
    · obtain ⟨fe1, hstep⟩ := visitPart_parts_analyzers rule payload rebuild k
        { input := inp, component := s, finalErr := fe, calls := calls } hmode hha hmatch
      rw [hstep]
      obtain ⟨fe2, hrest⟩ := ih
        { input :=
            { inp with
              InteractURLs := (rule.executeEvaluate inp k (s.vals k) payload inp.InteractURLs).2 }
          component := s
          finalErr := fe1
          calls := calls ++ analyzerRequests inp.Values s
            [(k, (rule.executeEvaluate inp k (s.vals k) payload inp.InteractURLs).1,
              (rule.executeEvaluate inp k (s.vals k) payload inp.InteractURLs).2)]
            (rebuild s) } rfl hha hv
      refine ⟨fe2, hrest.trans ?_⟩
      simp only [Rule.evalTrace, hmatch, if_true, traceURLs,
        executeEvaluate_congr rule input inp hv, hv, List.append_assoc]
      rw [analyzerRequests_cons input.Values s _ (rule.evalTrace input payload s.vals ks _)]
    · rw [visitPart_nomatch rule payload (partsComponent rebuild) k (s.vals k) _
        (by simpa using hmatch)]
      obtain ⟨fe2, hrest⟩ := ih { input := inp, component := s, finalErr := fe, calls := calls }
        rfl hha hv
      refine ⟨fe2, hrest.trans ?_⟩
      simp only [Rule.evalTrace, hmatch, Bool.false_eq_true, if_false]

theorem executePartComponent_analyzerInput {σ ρ : Type} (rule : Rule)
    (input : ExecuteRuleInput σ ρ) (payload : GoString) (c : Component σ ρ) (s : σ) :
    ∀ g ∈ (rule.executePartComponent input payload c s).2.calls,
      g.AnalyzerInput.isSome = input.HasAnalyzers := by
  have hiter := iterated_analyzerInput rule input payload c s
  have hha := (iterated_input rule input payload c s).2.1
  rw [executePartComponent_eq]
  split
  · exact hiter
  split
  swap
  · exact hiter
  split
  · exact hiter
  split
  · exact hiter
  · simp only [buildInput_calls]
    intro g hg
    rcases List.mem_append.mp hg with hg | hg
    · exact hiter g hg
    · rw [List.mem_singleton.mp hg]
      simp only [Rule.builtRequest, hha]
      cases input.HasAnalyzers <;> rfl

/-- C14: in single mode with analyzers attached, over a map-backed component, the
component is not mutated: it ends as it began, every request passed to the sink
is rebuilt from the original state, and its analyzer input records the iterated
key, the evaluated-and-placed value as `Value` and the value read from the
component as `OriginalValue` (one request per matching key, in order, when
`Rebuild` succeeds on the original state, and none when it fails). Without
analyzers, in every mode, no request carries an analyzer input. -/
theorem executePartComponent_single_analyzers {ρ : Type} (rule : Rule)
    (input : ExecuteRuleInput Parts ρ) (payload : GoString)
    (rebuild : Parts → Except ComponentError ρ) (s : Parts) :
    (rule.modeType = singleModeType → input.HasAnalyzers = true →
      (rule.executePartComponent input payload (partsComponent rebuild) s).2.component = s
      ∧ (rule.executePartComponent input payload (partsComponent rebuild) s).2.calls
        = analyzerRequests input.Values s
            (rule.evalTrace input payload s.vals s.keys input.InteractURLs) (rebuild s))
    ∧ (input.HasAnalyzers = false →
      ∀ g ∈ (rule.executePartComponent input payload (partsComponent rebuild) s).2.calls,
        g.AnalyzerInput = none) := by
  constructor
  · intro hmode han
    obtain ⟨fe, hfold⟩ := analyzers_fold rule input payload rebuild s hmode s.keys
      { input := input, component := s, finalErr := none, calls := [] } rfl han rfl
    have hiter : rule.iterated input payload (partsComponent rebuild) s = _ := hfold
    rw [executePartComponent_single_state rule input payload _ s hmode, hiter]
    exact ⟨rfl, by simp⟩
  · intro han g hg
    have h := executePartComponent_analyzerInput rule input payload (partsComponent rebuild) s
      g hg
    rw [han] at h
    cases hai : g.AnalyzerInput with
    | none => rfl
    | some a => rw [hai] at h; cases h

/-- Over the parts `{a: 1, b: 2}` in single mode with analyzers attached, a
predicate matching only `a`, payload `X` and the postfix rule type: the one
request shows the original `a` as `1`, its analyzer input has key `a`, value
`1X` and original value `1`, and the component is unchanged; and the same run
without analyzers carries no analyzer input. -/
theorem executePartComponent_single_analyzers_witness :
    ((plainRule postfixRuleType singleModeType (fun k _ => decide (k = bytes "a"))).executePartComponent
        (plainInput true (fun _ _ => true)) (bytes "X") (partsComponent listRebuild)
        partsAB).2.calls.map
          (fun g => (g.Request, g.AnalyzerInput.map (fun a => (a.Key, a.Value, a.OriginalValue))))
      = [([(bytes "a", bytes "1"), (bytes "b", bytes "2")],
          some (bytes "a", bytes "1X", bytes "1"))]
    ∧ ((plainRule postfixRuleType singleModeType (fun k _ => decide (k = bytes "a"))).executePartComponent
        (plainInput true (fun _ _ => true)) (bytes "X") (partsComponent listRebuild)
        partsAB).2.component = partsAB
    ∧ ∀ g ∈ ((plainRule postfixRuleType singleModeType
          (fun k _ => decide (k = bytes "a"))).executePartComponent
        (plainInput false (fun _ _ => true)) (bytes "X") (partsComponent listRebuild)
        partsAB).2.calls, g.AnalyzerInput = none :=
  have h := (executePartComponent_single_analyzers
    (plainRule postfixRuleType singleModeType (fun k _ => decide (k = bytes "a")))
    (plainInput true (fun _ _ => true)) (bytes "X") listRebuild partsAB).1 rfl rfl
  ⟨by rw [h.2]; decide, h.1,
   (executePartComponent_single_analyzers
    (plainRule postfixRuleType singleModeType (fun k _ => decide (k = bytes "a")))
    (plainInput false (fun _ _ => true)) (bytes "X") listRebuild partsAB).2 rfl⟩

/-! ## A failed rebuild in single mode -/

/-- C17 at a concrete input: over the parts `{a: 1, b: 2}` in single mode without
analyzers, with every key matching, payload `X`, the postfix rule type, a sink
that answers `true` and a `Rebuild` that fails for `a` (while `b` still holds
`2`) and succeeds for `b`: the run returns `nil`, the only request, the one for
`b`, shows `a` as `1X` as well as `b` as `2X`, and `a` is left holding `1X`. -/
theorem executePartComponent_rebuild_failure_leaves_mutation :
    ((plainRule postfixRuleType singleModeType (fun _ _ => true)).executePartComponent
        (plainInput false (fun _ _ => true)) (bytes "X") (partsComponent rebuildUnlessB2)
        partsAB).1 = none
    ∧ ((plainRule postfixRuleType singleModeType (fun _ _ => true)).executePartComponent
        (plainInput false (fun _ _ => true)) (bytes "X") (partsComponent rebuildUnlessB2)
        partsAB).2.calls.map (fun g => g.Request)
      = [[(bytes "a", bytes "1X"), (bytes "b", bytes "2X")]]
    ∧ ((plainRule postfixRuleType singleModeType (fun _ _ => true)).executePartComponent
        (plainInput false (fun _ _ => true)) (bytes "X") (partsComponent rebuildUnlessB2)
        partsAB).2.component.toList
      = [(bytes "a", bytes "1X"), (bytes "b", bytes "2")] := by
  decide

/-! ## Interaction URLs -/

theorem urls_fold {σ ρ : Type} (rule : Rule) (input : ExecuteRuleInput σ ρ)
    (payload : GoString) (c : Component σ ρ) :
    ∀ (ks : List GoString) (st : State σ ρ), st.input.Values = input.Values →
      (ks.foldl (fun st key => rule.visitPart payload c key (c.Value st.component key) st)
          st).input.InteractURLs
        = traceURLs st.input.InteractURLs
            (rule.evalPairs input payload (rule.yielded payload c ks st) st.input.InteractURLs)
      ∧ ∃ new,
          (ks.foldl (fun st key => rule.visitPart payload c key (c.Value st.component key) st)
            st).calls = st.calls ++ new
          ∧ (new.map (fun g => g.InteractURLs)).Sublist
              ((rule.evalPairs input payload (rule.yielded payload c ks st)
                st.input.InteractURLs).map (fun e => e.2.2)) := by
  intro ks
  induction ks with
  | nil =>
    intro st _
    exact ⟨rfl, [], by simp, by simp [Rule.yielded, Rule.evalPairs]⟩
  | cons k ks ih =>
    intro st hv
    rw [List.foldl_cons]
    have hv1 : (rule.visitPart payload c k (c.Value st.component k) st).input.Values
        = input.Values :=
      (visitPart_input rule payload c k (c.Value st.component k) st).2.2.trans hv
    obtain ⟨hurls, new, hcalls, hsub⟩ := ih _ hv1
    by_cases hmatch : rule.matchKeyOrValue k (c.Value st.component k) = true
    · obtain ⟨hinp, hstep⟩ := visitPart_match rule payload c k (c.Value st.component k) st hmatch
      have hu1 : (rule.visitPart payload c k (c.Value st.component k) st).input.InteractURLs
          = (rule.executeEvaluate input k (c.Value st.component k) payload
              st.input.InteractURLs).2 := by
        rw [hinp, executeEvaluate_congr rule input st.input hv]
      rw [hu1] at hurls hsub
      refine ⟨?_, ?_⟩
      · rw [hurls]
        simp only [Rule.yielded, Rule.evalPairs, hmatch, if_true, traceURLs]
      · rcases hstep with h0 | ⟨_, req, comp, h1⟩
        · refine ⟨new, by rw [hcalls, h0], ?_⟩
          simp only [Rule.yielded, Rule.evalPairs, hmatch, if_true, List.map_cons]
          exact List.Sublist.cons _ hsub
        · refine ⟨_ :: new, by rw [hcalls, h1, List.append_assoc, List.singleton_append], ?_⟩
          simp only [Rule.yielded, Rule.evalPairs, hmatch, if_true, List.map_cons,
            Rule.builtRequest, executeEvaluate_congr rule input st.input hv]
          exact List.Sublist.cons₂ _ hsub
    · have hno : rule.matchKeyOrValue k (c.Value st.component k) = false := by
        simpa using hmatch
      have hvis := visitPart_nomatch rule payload c k _ st hno
      rw [hvis] at hurls hcalls hsub
      simp only [Rule.yielded, Rule.evalPairs, hno, Bool.false_eq_true, if_false, hvis]
      exact ⟨hurls, new, hcalls, hsub⟩

theorem evalPairs_chain {σ ρ : Type} (rule : Rule) (input : ExecuteRuleInput σ ρ)
    (payload : GoString) (hext : ∀ t u, u <+: (rule.options.Replace t u).2) :
    ∀ (ps : List (GoString × GoString)) (urls : List GoString),
      List.Chain (fun a b => a <+: b) urls
        ((rule.evalPairs input payload ps urls).map (fun e => e.2.2)) := by
  intro ps
  induction ps with
  | nil => intro urls; simp [Rule.evalPairs]
  | cons p ps ih =>
    intro urls
    by_cases hmatch : rule.matchKeyOrValue p.1 p.2 = true
    · simp only [Rule.evalPairs, hmatch, if_true, List.map_cons, List.chain_cons]
      refine ⟨?_, ih _⟩
      rw [executeEvaluate_eq]
      exact hext _ _
    · simp only [Rule.evalPairs, hmatch, Bool.false_eq_true, if_false]
      exact ih urls

/-- C18: the interaction URL list is threaded through the matching keys in
iteration order, whatever `SetValue`, `Rebuild` and the sink answer:
`input.InteractURLs` on return is the list returned by the last evaluation of
the run (the initial list when there was none), each evaluation having received
the list returned by the one before it; in single mode the lists attached to
the dispatched requests are, in order, among the lists those evaluations
returned; and when the replacer only extends the list it is given, the lists of
successive dispatched requests form a chain of extensions. -/
theorem executePartComponent_interactURLs {σ ρ : Type} (rule : Rule)
    (input : ExecuteRuleInput σ ρ) (payload : GoString) (c : Component σ ρ) (s : σ) :
    (rule.executePartComponent input payload c s).2.input.InteractURLs
      = traceURLs input.InteractURLs (rule.runEvals input payload c s)
    ∧ (rule.modeType = singleModeType →
        ((rule.executePartComponent input payload c s).2.calls.map
            (fun g => g.InteractURLs)).Sublist
          ((rule.runEvals input payload c s).map (fun e => e.2.2)))
    ∧ ((∀ t u, u <+: (rule.options.Replace t u).2) →
        List.Chain' (fun a b => a <+: b)
          ((rule.executePartComponent input payload c s).2.calls.map
            (fun g => g.InteractURLs))) := by
  obtain ⟨hurls, new, hcalls, hsub⟩ := urls_fold rule input payload c (c.Keys s)
    { input := input, component := s, finalErr := none, calls := [] } rfl
  have hiu : (rule.iterated input payload c s).input.InteractURLs
      = traceURLs input.InteractURLs (rule.runEvals input payload c s) := hurls
  have hic : (rule.iterated input payload c s).calls = new := by
    have h : (rule.iterated input payload c s).calls = [] ++ new := hcalls
    simpa using h
  have hsub2 : ((rule.iterated input payload c s).calls.map (fun g => g.InteractURLs)).Sublist
      ((rule.runEvals input payload c s).map (fun e => e.2.2)) := by
    rw [hic]; exact hsub
  have hfinal : (rule.executePartComponent input payload c s).2.input
      = (rule.iterated input payload c s).input := by
    rw [executePartComponent_eq]
    split
    · rfl
    split
    swap
    · rfl
    split
    · rfl
    split <;> rfl
  refine ⟨by rw [hfinal, hiu], ?_, ?_⟩
  · intro hmode
    rw [executePartComponent_single_state rule input payload c s hmode]
    exact hsub2
  · intro hext
    by_cases hmode : rule.modeType = singleModeType
    · rw [executePartComponent_single_state rule input payload c s hmode]
      have hchain : List.Chain' (fun a b : List GoString => a <+: b)
          ((rule.runEvals input payload c s).map (fun e => e.2.2)) :=
        (List.Chain'.tail (l := input.InteractURLs :: _)
          (evalPairs_chain rule input payload hext _ input.InteractURLs))
      exact hchain.sublist hsub2
    · obtain ⟨hq, _⟩ := iterated_quiet rule input payload c s hmode
      rw [executePartComponent_eq]
      split
      · rw [hq]; exact List.chain'_nil
      split
      swap
      · rw [hq]; exact List.chain'_nil
      split
      · rw [hq]; exact List.chain'_nil
      split
      · rw [hq]; exact List.chain'_nil
      · simp only [buildInput_calls, hq, List.nil_append, List.map_cons, List.map_nil]
        exact List.chain'_singleton _

/-- Over the parts `{a: 1, b: 2}` in single mode with every key matching, a
replacer that appends the text it is given, and the initial list `[u]`: the
first request carries `[u, X]`, the second `[u, X, X]`, and that is the list on
return; the same holds on return when `Rebuild` always fails and nothing is
dispatched. -/
theorem executePartComponent_interactURLs_witness :
    ((recordingRule singleModeType).executePartComponent (inputWithURL (fun _ _ => true))
        (bytes "X") (partsComponent listRebuild) partsAB).2.calls.map (fun g => g.InteractURLs)
      = [[bytes "u", bytes "X"], [bytes "u", bytes "X", bytes "X"]]
    ∧ ((recordingRule singleModeType).executePartComponent (inputWithURL (fun _ _ => true))
        (bytes "X") (partsComponent failingRebuild) partsAB).2.input.InteractURLs
      = [bytes "u", bytes "X", bytes "X"]
    ∧ List.Chain' (fun a b => a <+: b)
        (((recordingRule singleModeType).executePartComponent (inputWithURL (fun _ _ => true))
            (bytes "X") (partsComponent listRebuild) partsAB).2.calls.map
          (fun g => g.InteractURLs)) :=
  ⟨by decide,
   (executePartComponent_interactURLs (recordingRule singleModeType)
      (inputWithURL (fun _ _ => true)) (bytes "X") (partsComponent failingRebuild)
      partsAB).1.trans (by decide),
   (executePartComponent_interactURLs (recordingRule singleModeType)
      (inputWithURL (fun _ _ => true)) (bytes "X") (partsComponent listRebuild)
      partsAB).2.2 (fun _ u => List.prefix_append u _)⟩

/-! ## Two runs with sinks that behave alike -/

theorem sinkAnswersFrom_append_list {σ ρ : Type}
    (cb : List (GeneratedRequest σ ρ) → GeneratedRequest σ ρ → Bool)
    (xs ys : List (GeneratedRequest σ ρ)) :
    ∀ seen, sinkAnswersFrom cb seen (xs ++ ys)
      = sinkAnswersFrom cb seen xs ++ sinkAnswersFrom cb (seen ++ xs) ys := by
  induction xs with
  | nil => intro seen; simp [sinkAnswersFrom]
  | cons x xs ih => intro seen; simp [sinkAnswersFrom, ih]

/-- Two sinks that gave the same answers to a list of calls gave the same answer
to each call of the list. -/
theorem sinkAnswers_agree_at {σ ρ : Type}
    (cb cb2 : List (GeneratedRequest σ ρ) → GeneratedRequest σ ρ → Bool)
    (xs more : List (GeneratedRequest σ ρ)) (r : GeneratedRequest σ ρ)
    (h : sinkAnswers cb2 (xs ++ [r] ++ more) = sinkAnswers cb (xs ++ [r] ++ more)) :
    cb2 xs r = cb xs r := by
  unfold sinkAnswers at h
  rw [List.append_assoc, sinkAnswersFrom_append_list cb2, sinkAnswersFrom_append_list cb] at h
  have hlen : (sinkAnswersFrom cb2 [] xs).length = (sinkAnswersFrom cb [] xs).length := by
    rw [sinkAnswersFrom_length, sinkAnswersFrom_length]
  have h2 := (List.append_inj h hlen).2
  simp only [List.nil_append, List.singleton_append, sinkAnswersFrom, List.cons.injEq] at h2
  exact h2.1

/-- The visitor after `SetValue`, with the two matches on the outcome of
`buildInput` written as a test of the sink's answer. -/
theorem afterSet_eq_ite {σ ρ : Type} (rule : Rule) (c : Component σ ρ)
    (key evaluated valueStr : GoString) (st : State σ ρ) (set : σ × Option ComponentError) :
    rule.afterSet c key evaluated valueStr st set
      = if set.2.isSome then { st with component := set.1 }
        else if rule.modeType = singleModeType then
          match c.Rebuild set.1 with
          | .error _ => { st with component := set.1 }
          | .ok req =>
            if st.input.Callback st.calls
                (Rule.builtRequest st.input req st.input.InteractURLs set.1 key evaluated
                  valueStr) then
              { st with
                calls := st.calls ++
                  [Rule.builtRequest st.input req st.input.InteractURLs set.1 key evaluated
                    valueStr]
                component := (c.SetValue set.1 key valueStr).1 }
            else
              { st with
                component := set.1
                finalErr := some Error.ErrNoMoreRequests
                calls := st.calls ++
                  [Rule.builtRequest st.input req st.input.InteractURLs set.1 key evaluated
                    valueStr] }
        else { st with component := set.1 } := by
  unfold Rule.afterSet
  split
  · rfl
  split
  swap
  · rfl
  split
  · rfl
  simp only [buildInput_err, buildInput_calls]
  split
  · rename_i h
    split at h
    · cases h
    · rename_i hfalse
      cases h
      simp [hfalse]
  · rename_i h
    split at h
    · rename_i htrue
      simp [htrue]
    · cases h

theorem afterSet_withSink {σ ρ : Type} (rule : Rule) (c : Component σ ρ)
    (key evaluated valueStr : GoString) (st : State σ ρ) (set : σ × Option ComponentError)
    (cb2 : List (GeneratedRequest σ ρ) → GeneratedRequest σ ρ → Bool)
    (hagree : ∀ r, (rule.afterSet c key evaluated valueStr st set).calls = st.calls ++ [r] →
      cb2 st.calls r = st.input.Callback st.calls r) :
    rule.afterSet c key evaluated valueStr (st.withSink cb2) set
      = (rule.afterSet c key evaluated valueStr st set).withSink cb2 := by
  rw [afterSet_eq_ite] at hagree ⊢
  rw [afterSet_eq_ite]
  by_cases hs : set.2.isSome = true
  · simp only [hs, if_true]
    rfl
  by_cases hm : rule.modeType = singleModeType
  swap
  · simp only [hs, hm, Bool.false_eq_true, if_false]
    rfl
  cases hreb : c.Rebuild set.1 with
  | error e =>
    simp only [hs, hm, Bool.false_eq_true, if_false, if_true]
    rfl
  | ok req =>
    simp only [hs, hm, Bool.false_eq_true, if_false, if_true, hreb] at hagree ⊢
    have hcb : cb2 st.calls
        (Rule.builtRequest st.input req st.input.InteractURLs set.1 key evaluated valueStr)
        = st.input.Callback st.calls
          (Rule.builtRequest st.input req st.input.InteractURLs set.1 key evaluated valueStr) := by
      apply hagree
      split <;> rfl
    show (if cb2 st.calls
        (Rule.builtRequest st.input req st.input.InteractURLs set.1 key evaluated valueStr)
          = true then _ else _) = _
    rw [hcb]
    split <;> rfl

theorem visitPart_withSink {σ ρ : Type} (rule : Rule) (payload : GoString) (c : Component σ ρ)
    (key value : GoString) (st : State σ ρ)
    (cb2 : List (GeneratedRequest σ ρ) → GeneratedRequest σ ρ → Bool)
    (hagree : ∀ r, (rule.visitPart payload c key value st).calls = st.calls ++ [r] →
      cb2 st.calls r = st.input.Callback st.calls r) :
    rule.visitPart payload c key value (st.withSink cb2)
      = (rule.visitPart payload c key value st).withSink cb2 := by
  rw [visitPart_eq] at hagree ⊢
  rw [visitPart_eq]
  split
  · rfl
  · rename_i hmatch
    simp only [hmatch, if_false] at hagree
    exact afterSet_withSink rule c key _ value _ _ cb2 hagree

theorem fold_calls_extend {σ ρ : Type} (rule : Rule) (payload : GoString) (c : Component σ ρ)
    (ks : List GoString) (st : State σ ρ) :
    ∃ more,
      (ks.foldl (fun st key => rule.visitPart payload c key (c.Value st.component key) st)
        st).calls = st.calls ++ more := by
  obtain ⟨_, new, h, _⟩ := urls_fold rule st.input payload c ks st rfl
  exact ⟨new, h⟩

theorem fold_withSink {σ ρ : Type} (rule : Rule) (payload : GoString) (c : Component σ ρ)
    (cb cb2 : List (GeneratedRequest σ ρ) → GeneratedRequest σ ρ → Bool) :
    ∀ (ks : List GoString) (st : State σ ρ), st.input.Callback = cb →
      sinkAnswers cb2
          (ks.foldl (fun st key => rule.visitPart payload c key (c.Value st.component key) st)
            st).calls
        = sinkAnswers cb
          (ks.foldl (fun st key => rule.visitPart payload c key (c.Value st.component key) st)
            st).calls →
      ks.foldl (fun st key => rule.visitPart payload c key (c.Value st.component key) st)
          (st.withSink cb2)
        = (ks.foldl (fun st key => rule.visitPart payload c key (c.Value st.component key) st)
            st).withSink cb2 := by
  intro ks
  induction ks with
  | nil => intro st _ _; rfl
  | cons k ks ih =>
    intro st hcb hans
    rw [List.foldl_cons] at hans ⊢
    rw [List.foldl_cons]
    have hcb1 : (rule.visitPart payload c k (c.Value st.component k) st).input.Callback = cb :=
      (visitPart_input rule payload c k (c.Value st.component k) st).1.trans hcb
    have hstep : rule.visitPart payload c k (c.Value st.component k) (st.withSink cb2)
        = (rule.visitPart payload c k (c.Value st.component k) st).withSink cb2 := by
      apply visitPart_withSink
      intro r hr
      obtain ⟨more, hmore⟩ := fold_calls_extend rule payload c ks
        (rule.visitPart payload c k (c.Value st.component k) st)
      rw [hmore, hr] at hans
      rw [hcb]
      exact sinkAnswers_agree_at cb cb2 st.calls more r hans
    show List.foldl _ (rule.visitPart payload c k (c.Value st.component k) (st.withSink cb2)) ks
      = _
    rw [hstep]
    exact ih _ hcb1 hans

theorem sinkAnswers_agree_init {σ ρ : Type}
    (cb cb2 : List (GeneratedRequest σ ρ) → GeneratedRequest σ ρ → Bool)
    (xs ys : List (GeneratedRequest σ ρ))
    (h : sinkAnswers cb2 (xs ++ ys) = sinkAnswers cb (xs ++ ys)) :
    sinkAnswers cb2 xs = sinkAnswers cb xs := by
  unfold sinkAnswers at h ⊢
  rw [sinkAnswersFrom_append_list cb2, sinkAnswersFrom_append_list cb] at h
  have hlen : (sinkAnswersFrom cb2 [] xs).length = (sinkAnswersFrom cb [] xs).length := by
    rw [sinkAnswersFrom_length, sinkAnswersFrom_length]
  exact (List.append_inj h hlen).1

theorem iterated_withSink {σ ρ : Type} (rule : Rule) (input : ExecuteRuleInput σ ρ)
    (payload : GoString) (c : Component σ ρ) (s : σ)
    (cb2 : List (GeneratedRequest σ ρ) → GeneratedRequest σ ρ → Bool)
    (hans : sinkAnswers cb2 (rule.iterated input payload c s).calls
      = sinkAnswers input.Callback (rule.iterated input payload c s).calls) :
    rule.iterated { input with Callback := cb2 } payload c s
      = (rule.iterated input payload c s).withSink cb2 :=
  fold_withSink rule payload c input.Callback cb2 (c.Keys s)
    { input := input, component := s, finalErr := none, calls := [] } rfl hans

/-- A run with another sink that gives the same answers to the calls of the run
is the same run. -/
theorem executePartComponent_withSink {σ ρ : Type} (rule : Rule)
    (input : ExecuteRuleInput σ ρ) (payload : GoString) (c : Component σ ρ) (s : σ)
    (cb2 : List (GeneratedRequest σ ρ) → GeneratedRequest σ ρ → Bool)
    (hans : sinkAnswers cb2 (rule.executePartComponent input payload c s).2.calls
      = sinkAnswers input.Callback (rule.executePartComponent input payload c s).2.calls) :
    rule.executePartComponent { input with Callback := cb2 } payload c s
      = ((rule.executePartComponent input payload c s).1,
         (rule.executePartComponent input payload c s).2.withSink cb2) := by
  have hcb := (iterated_input rule input payload c s).1
  rw [executePartComponent_eq rule input] at hans ⊢
  rw [executePartComponent_eq rule { input with Callback := cb2 }]
  by_cases hfe : (rule.iterated input payload c s).finalErr.isSome = true
  · simp only [hfe, if_true] at hans ⊢
    rw [iterated_withSink rule input payload c s cb2 hans]
    simp only [State.withSink, hfe, if_true]
  by_cases hm : rule.modeType = multipleModeType
  swap
  · simp only [hfe, hm, Bool.false_eq_true, if_false] at hans ⊢
    rw [iterated_withSink rule input payload c s cb2 hans]
    simp only [State.withSink, hfe, Bool.false_eq_true, if_false]
  by_cases ha : (rule.iterated input payload c s).input.HasAnalyzers = true
  · simp only [hfe, hm, ha, Bool.false_eq_true, if_false, if_true] at hans ⊢
    rw [iterated_withSink rule input payload c s cb2 hans]
    simp only [State.withSink, hfe, ha, Bool.false_eq_true, if_false, if_true]
  cases hreb : c.Rebuild (rule.iterated input payload c s).component with
  | error e =>
    simp only [hfe, hm, ha, Bool.false_eq_true, if_false, if_true, hreb] at hans ⊢
    rw [iterated_withSink rule input payload c s cb2 hans]
    simp only [State.withSink, hfe, ha, Bool.false_eq_true, if_false, if_true, hreb]
  | ok req =>
    simp only [hfe, hm, ha, Bool.false_eq_true, if_false, if_true, hreb, buildInput_calls]
      at hans ⊢
    have hinit := sinkAnswers_agree_init input.Callback cb2 _ _ hans
    have hlast := sinkAnswers_agree_at input.Callback cb2 _ [] _
      (by simpa only [List.append_nil] using hans)
    rw [iterated_withSink rule input payload c s cb2 hinit]
    simp only [State.withSink, hfe, ha, Bool.false_eq_true, if_false, if_true, hreb,
      buildInput_err, buildInput_calls]
    rw [← hcb] at hlast
    have ha2 : (rule.iterated input payload c s).input.HasAnalyzers = false := by
      simpa using ha
    simp only [Rule.builtRequest, ha2, Bool.false_eq_true, if_false] at hlast ⊢
    rw [hlast]

/-- C16: two runs of `executePartComponent` with the same rule, payload and
component operations, over equal components and inputs that agree on the
dynamic values, the interaction URLs and the analyzer flag, and whose sinks
behave alike (the second sink gives, to the calls of the first run, the answers
the first sink gave), return the same result, pass the same sequence of
requests to the sink, and end with the same component and the same
interaction URLs. -/
theorem executePartComponent_deterministic {σ ρ : Type} (rule : Rule) (payload : GoString)
    (c : Component σ ρ) (input1 input2 : ExecuteRuleInput σ ρ) (s1 s2 : σ)
    (hs : s2 = s1) (hv : input2.Values = input1.Values)
    (hu : input2.InteractURLs = input1.InteractURLs)
    (ha : input2.HasAnalyzers = input1.HasAnalyzers)
    (hsink : sinkAnswers input2.Callback (rule.executePartComponent input1 payload c s1).2.calls
      = sinkAnswers input1.Callback (rule.executePartComponent input1 payload c s1).2.calls) :
    (rule.executePartComponent input2 payload c s2).1
      = (rule.executePartComponent input1 payload c s1).1
    ∧ (rule.executePartComponent input2 payload c s2).2.calls
      = (rule.executePartComponent input1 payload c s1).2.calls
    ∧ (rule.executePartComponent input2 payload c s2).2.component
      = (rule.executePartComponent input1 payload c s1).2.component
    ∧ (rule.executePartComponent input2 payload c s2).2.input.InteractURLs
      = (rule.executePartComponent input1 payload c s1).2.input.InteractURLs := by
  have hin : input2 = { input1 with Callback := input2.Callback } := by
    cases input1
    cases input2
    simp only at hv hu ha
    simp [hv, hu, ha]
  rw [hs, hin, executePartComponent_withSink rule input1 payload c s1 input2.Callback hsink]
  exact ⟨rfl, rfl, rfl, rfl⟩

/-- Over the parts `{a: 1, b: 2}` in single mode with every key matching: a sink
that always answers `true` and a sink that answers `true` to its first two
calls only are different sinks that behave alike on this run, and the two runs
agree. -/
theorem executePartComponent_deterministic_witness :
    ((plainRule postfixRuleType singleModeType (fun _ _ => true)).executePartComponent
        (plainInput false (fun seen _ => decide (seen.length < 2))) (bytes "X")
        (partsComponent listRebuild) partsAB).1
      = ((plainRule postfixRuleType singleModeType (fun _ _ => true)).executePartComponent
        (plainInput false (fun _ _ => true)) (bytes "X")
        (partsComponent listRebuild) partsAB).1
    ∧ ((plainRule postfixRuleType singleModeType (fun _ _ => true)).executePartComponent
        (plainInput false (fun seen _ => decide (seen.length < 2))) (bytes "X")
        (partsComponent listRebuild) partsAB).2.calls
      = ((plainRule postfixRuleType singleModeType (fun _ _ => true)).executePartComponent
        (plainInput false (fun _ _ => true)) (bytes "X")
        (partsComponent listRebuild) partsAB).2.calls
    ∧ ((plainRule postfixRuleType singleModeType (fun _ _ => true)).executePartComponent
        (plainInput false (fun seen _ => decide (seen.length < 2))) (bytes "X")
        (partsComponent listRebuild) partsAB).2.component
      = ((plainRule postfixRuleType singleModeType (fun _ _ => true)).executePartComponent
        (plainInput false (fun _ _ => true)) (bytes "X")
        (partsComponent listRebuild) partsAB).2.component
    ∧ ((plainRule postfixRuleType singleModeType (fun _ _ => true)).executePartComponent
        (plainInput false (fun seen _ => decide (seen.length < 2))) (bytes "X")
        (partsComponent listRebuild) partsAB).2.input.InteractURLs
      = ((plainRule postfixRuleType singleModeType (fun _ _ => true)).executePartComponent
        (plainInput false (fun _ _ => true)) (bytes "X")
        (partsComponent listRebuild) partsAB).2.input.InteractURLs :=
  executePartComponent_deterministic
    (plainRule postfixRuleType singleModeType (fun _ _ => true)) (bytes "X")
    (partsComponent listRebuild) (plainInput false (fun _ _ => true))
    (plainInput false (fun seen _ => decide (seen.length < 2))) partsAB partsAB
    rfl rfl rfl rfl (by decide)

end fuzz
